import Mathlib

/-!
Verification of the ingestion / preview / rollback / compaction engine of
the miner price tracker (src/components/MinerPriceTracker.js).

The JavaScript component keeps its mutable state in seven pieces: the
current snapshot list (`miners`), the per-item time series map
(`priceHistory`), the known-names set (`knownMiners`), the specs map
(`minerSpecs`), the max-price map (`maxPrices`), the previous-price map
(`previousPrices`) and the audit trail (`uploadHistory`).  We embed that
state as a structure of lists and association lists (JavaScript objects
are key-unique association lists preserving insertion order; a JS `Set`
is a duplicate-free list preserving insertion order) and translate the
four engine functions `generateUploadPreview`, `actuallyUpdateData`,
`rollbackUpload` and `optimizePriceHistory` as pure functions on it.

Modelling conventions:
* JS numbers are rationals; the one place the engine can divide by zero
  (the preview's percentage computation) is modelled by `JsNum`, which
  has explicit positive/negative infinity values like IEEE floats.
* Date strings and ISO timestamp strings are modelled as naturals; the
  source only ever compares them for equality or by `new Date` ordering,
  both of which agree with the numeric order.
* `Array.prototype.sort` is stable (ES2019); we model it with a stable
  insertion sort `jsSort` driven by the strict comparator of the source.
* The compaction routine collects entries in a `Map` and a `Set` keyed
  by object identity; we model identity by tagging each intraday entry
  with its array index (`enumF`) before processing.
* `JSON.parse(JSON.stringify(x))` deep copies are identities on values.
-/

namespace MinerTracker

/-! ### Generic list helpers (JS objects, sets, enumeration, stable sort) -/

/-- Lookup in a JS object modelled as an association list (first match). -/
def getKey {β : Type} (k : String) : List (String × β) → Option β
  | [] => none
  | p :: rest => if p.1 = k then some p.2 else getKey k rest

/-- `obj[k] = v` on a JS object: overwrite the existing key in place, else
append the new key at the end (JS property insertion order). -/
def setKey {β : Type} (k : String) (v : β) : List (String × β) → List (String × β)
  | [] => [(k, v)]
  | p :: rest => if p.1 = k then (k, v) :: rest else p :: setKey k v rest

/-- `delete obj[k]` on a JS object (keys are unique, remove the first). -/
def delKey {β : Type} (k : String) : List (String × β) → List (String × β)
  | [] => []
  | p :: rest => if p.1 = k then rest else p :: delKey k rest

/-- `set.add(k)` on a JS `Set` modelled as a duplicate-free list in
insertion order. -/
def setAdd (s : List String) (k : String) : List String :=
  if k ∈ s then s else s ++ [k]

/-- Auxiliary recursion for `dedupKeepFirst`. -/
def dedupFrom (seen : List String) : List String → List String
  | [] => []
  | x :: xs => if x ∈ seen then dedupFrom seen xs else x :: dedupFrom (x :: seen) xs

/-- `new Set(arr)`: keep the first occurrence of each element, in order. -/
def dedupKeepFirst (l : List String) : List String := dedupFrom [] l

/-- Enumerate a list with positions starting at `n` (array indices). -/
def enumF {α : Type} (n : Nat) : List α → List (Nat × α)
  | [] => []
  | x :: xs => (n, x) :: enumF (n + 1) xs

/-- Insert `x` into `l` before the first element `y` with `lt x y`;
walking past ties keeps earlier-arrived elements first. -/
def insertLt {α : Type} (lt : α → α → Bool) (x : α) : List α → List α
  | [] => [x]
  | y :: ys => if lt x y then x :: y :: ys else y :: insertLt lt x ys

/-- Stable sort by a strict comparator: the model of `Array.sort(cmp)`
where `cmp(a,b) < 0` iff `lt a b`.  (Any stable sort produces the same
list; we use left-to-right insertion.) -/
def jsSort {α : Type} (lt : α → α → Bool) (l : List α) : List α :=
  l.foldl (fun acc x => insertLt lt x acc) []

/-! ### Data model -/

/-- A JS number that may be an IEEE infinity (the only non-finite value
the modelled code can produce, via division by zero). -/
inductive JsNum where
  | fin (q : ℚ)
  | posInf
  | negInf
deriving DecidableEq, Repr

/-- One normalized item record as produced by `parseDataRows`.  Fields
that the normalizer may leave unassigned or null are `Option`s. -/
structure Miner where
  name : String
  hashrate : ℚ
  price : ℚ
  dailyEarnings : Option ℚ
  powerConsumption : Option ℚ
  efficiency : Option ℚ
  algorithm : Option String
  date : Nat
  uploadTimestamp : Nat
  uploadId : String
deriving DecidableEq, Repr

/-- One time-series entry as pushed into `priceHistory[key].intraday`. -/
structure HistEntry where
  date : Nat
  timestamp : Nat
  uploadId : String
  price : ℚ
  hashrate : ℚ
  dailyEarnings : Option ℚ
  efficiency : Option ℚ
  powerConsumption : Option ℚ
deriving DecidableEq, Repr

/-- The per-item history: coarse `daily` plus fine-grained `intraday`. -/
structure MinerHistory where
  daily : List HistEntry
  intraday : List HistEntry
deriving DecidableEq, Repr

/-- A `minerSpecs` entry. -/
structure MinerSpec where
  powerConsumption : Option ℚ
  efficiency : Option ℚ
  algorithm : Option String
deriving DecidableEq, Repr

/-- The merge strategy chosen by the operator. -/
inductive Strategy where
  | replace
  | merge
  | append
deriving DecidableEq, Repr

/-- The deep pre-mutation state copy embedded in an audit record.  Every
field is optional: `rollbackUpload` substitutes empty containers for
missing fields (`snap.miners || []` and friends). -/
structure Snapshot where
  miners : Option (List Miner)
  priceHistory : Option (List (String × MinerHistory))
  knownMiners : Option (List String)
  minerSpecs : Option (List (String × MinerSpec))
  maxPrices : Option (List (String × ℚ))
  previousPrices : Option (List (String × ℚ))
deriving DecidableEq, Repr

/-- One audit record (`newUploadRecord` in `actuallyUpdateData`). -/
structure UploadRecord where
  id : String
  date : Nat
  timestamp : Nat
  fileName : String
  minerCount : Nat
  newMinerCount : Nat
  updatedCount : Nat
  strategy : Strategy
  snapshot : Option Snapshot
deriving DecidableEq, Repr

/-- The engine's mutable state. -/
structure EngineState where
  miners : List Miner
  priceHistory : List (String × MinerHistory)
  knownMiners : List String
  minerSpecs : List (String × MinerSpec)
  maxPrices : List (String × ℚ)
  previousPrices : List (String × ℚ)
  uploadHistory : List UploadRecord
deriving DecidableEq, Repr

/-- The empty initial state (all containers created empty). -/
def initState : EngineState := ⟨[], [], [], [], [], [], []⟩

/-! ### Diff/preview engine (`generateUploadPreview`) -/

/-- The percentage price change computed by the preview:
`newPrice !== oldPrice ? (newPrice - oldPrice) / oldPrice * 100 : 0`.
When the old price is `0` and the prices differ, the JS division yields
an infinity. -/
def priceChangeVal (newPrice oldPrice : ℚ) : JsNum :=
  if newPrice = oldPrice then JsNum.fin 0
  else if oldPrice = 0 then (if oldPrice < newPrice then JsNum.posInf else JsNum.negInf)
  else JsNum.fin ((newPrice - oldPrice) / oldPrice * 100)

/-- `Math.abs(x) < eps` on a possibly-infinite JS number. -/
def jsAbsLt (x : JsNum) (eps : ℚ) : Bool :=
  match x with
  | JsNum.fin q => decide (|q| < eps)
  | _ => false

/-- `parseFloat(x.toFixed(1))`: round to one decimal, ties away from the
smaller candidate (ECMA `toFixed` picks the larger n on a tie);
infinities round to themselves. -/
def jsToFixed1 : JsNum → JsNum
  | JsNum.fin q => JsNum.fin ((Int.floor (q * 10 + 1/2) : ℚ) / 10)
  | x => x

/-- One element of the preview's `updated` list. -/
structure UpdatedEntry where
  name : String
  oldPrice : ℚ
  newPrice : ℚ
  change : JsNum
  oldHashrate : ℚ
  newHashrate : ℚ
  efficiency : Option ℚ
deriving DecidableEq, Repr

/-- The preview produced by `generateUploadPreview`.  The source also
keeps a `summary` of counters that always mirror the list lengths; an
error is recorded as its 1-based row number and the offending name. -/
structure Preview where
  new : List Miner
  updated : List UpdatedEntry
  unchanged : List String
  removed : List String
  errors : List (Nat × String)
deriving DecidableEq, Repr

/-- Classification of one batch row (the body of the `forEach` over
`newMinerEntries`, with its index). -/
def previewClassify (currentMinersList : List Miner) (acc : Preview) (p : Nat × Miner) :
    Preview :=
  let index := p.1
  let newMiner := p.2
  if newMiner.name = "" ∨ ¬ (0 < newMiner.price) ∨ ¬ (0 < newMiner.hashrate) then
    { acc with errors := acc.errors ++ [(index + 1, newMiner.name)] }
  else
    match currentMinersList.find? (fun m => m.name == newMiner.name) with
    | none => { acc with new := acc.new ++ [newMiner] }
    | some existing =>
      let priceChange := priceChangeVal newMiner.price existing.price
      if jsAbsLt priceChange (1/100) && (newMiner.hashrate == existing.hashrate) then
        { acc with unchanged := acc.unchanged ++ [newMiner.name] }
      else
        { acc with updated := acc.updated ++
            [⟨newMiner.name, existing.price, newMiner.price, jsToFixed1 priceChange,
              existing.hashrate, newMiner.hashrate, newMiner.efficiency⟩] }

/-- The diff/preview engine.  Pure: classifies every batch row, and under
the `replace` strategy additionally lists every current-snapshot name
that no raw batch row carries as `removed`. -/
def generateUploadPreview (newMinerEntries : List Miner) (currentMinersList : List Miner)
    (currentMergeStrategy : Strategy) : Preview :=
  let base := (enumF 0 newMinerEntries).foldl (previewClassify currentMinersList)
    ⟨[], [], [], [], []⟩
  match currentMergeStrategy with
  | Strategy.replace =>
      { base with removed := currentMinersList.foldl (fun r existingMiner =>
          if newMinerEntries.any (fun nm => nm.name == existingMiner.name) then r
          else r ++ [existingMiner.name]) [] }
  | _ => base

/-! ### Ingestion engine (`actuallyUpdateData`) -/

/-- The history entry built from one uploaded record (`newHistEntry`). -/
def histEntryOf (entry : Miner) : HistEntry :=
  ⟨entry.date, entry.uploadTimestamp, entry.uploadId, entry.price, entry.hashrate,
   entry.dailyEarnings, entry.efficiency, entry.powerConsumption⟩

/-- Ascending-timestamp strict comparator (`new Date(a.timestamp) - new Date(b.timestamp)`). -/
def ltTs (a b : HistEntry) : Bool := decide (a.timestamp < b.timestamp)

/-- Ascending-date strict comparator (`new Date(a.date) - new Date(b.date)`). -/
def ltDate (a b : HistEntry) : Bool := decide (a.date < b.date)

/-- Phase 1 of ingestion for one entry and one item: push the new
intraday entry, re-sort intraday ascending by timestamp, recompute the
daily entry for that date as the intraday entry with the maximum
timestamp for the date, insert or replace it in `daily`, and re-sort
`daily` ascending by date. -/
def updateMinerHistory (hist : MinerHistory) (entry : Miner) : MinerHistory :=
  let newHistEntry := histEntryOf entry
  let intraday1 := jsSort ltTs (hist.intraday ++ [newHistEntry])
  let entriesForDate := intraday1.filter (fun h => h.date == entry.date)
  match entriesForDate with
  | [] => { daily := hist.daily, intraday := intraday1 }
  | x :: xs =>
    let latestForDate := xs.foldl
      (fun latest current => if latest.timestamp < current.timestamp then current else latest) x
    let daily1 :=
      match hist.daily.findIdx? (fun d => d.date == entry.date) with
      | some dailyIdx => hist.daily.set dailyIdx latestForDate
      | none => hist.daily ++ [latestForDate]
    { daily := jsSort ltDate daily1, intraday := intraday1 }

/-- The per-entry accumulator of the ingestion loop (the `temp*` copies). -/
structure IngestAcc where
  priceHistory : List (String × MinerHistory)
  knownMiners : List String
  minerSpecs : List (String × MinerSpec)
  maxPrices : List (String × ℚ)
  countTrulyNewMiners : Nat
deriving DecidableEq, Repr

/-- The body of `uploadedEntries.forEach` in `actuallyUpdateData`:
known-names, truly-new count (checked against the pre-mutation
known-names snapshot), specs, history and max price. -/
def ingestEntryStep (preKnown : List String) (acc : IngestAcc) (entry : Miner) : IngestAcc :=
  let key := entry.name
  let count :=
    if key ∈ preKnown then acc.countTrulyNewMiners else acc.countTrulyNewMiners + 1
  let known := setAdd acc.knownMiners key
  let specs := setKey key ⟨entry.powerConsumption, entry.efficiency, entry.algorithm⟩
    acc.minerSpecs
  let hist0 := (getKey key acc.priceHistory).getD ⟨[], []⟩
  let ph := setKey key (updateMinerHistory hist0 entry) acc.priceHistory
  let mp := setKey key (max ((getKey key acc.maxPrices).getD 0) entry.price) acc.maxPrices
  ⟨ph, known, specs, mp, count⟩

/-- `{ ...oldMiner, ...newMiner }`.  The normalizer always assigns
`name`, `hashrate`, `price`, `date`, `uploadTimestamp` and `uploadId` to
a record it validates, so those keys come from the new record.  It may
omit `algorithm` (flat-format rows never set it) and `dailyEarnings` /
`powerConsumption` / `efficiency` (rich-format rows whose regexes do not
match); a key absent from the new record (`none`) leaves the old
record's value in place under the spread. -/
def jsSpread (oldMiner newMiner : Miner) : Miner :=
  { name := newMiner.name
    hashrate := newMiner.hashrate
    price := newMiner.price
    dailyEarnings := newMiner.dailyEarnings.or oldMiner.dailyEarnings
    powerConsumption := newMiner.powerConsumption.or oldMiner.powerConsumption
    efficiency := newMiner.efficiency.or oldMiner.efficiency
    algorithm := newMiner.algorithm.or oldMiner.algorithm
    date := newMiner.date
    uploadTimestamp := newMiner.uploadTimestamp
    uploadId := newMiner.uploadId }

/-- The record surviving at a name after a sequence of in-place merge
writes: the prior record (if any) spread-updated by each write in order,
or the first write spread-updated by the rest. -/
def lastWrite (prior : Option Miner) (writes : List Miner) : Option Miner :=
  match prior with
  | some m0 => some (writes.foldl jsSpread m0)
  | none =>
    match writes with
    | [] => none
    | w :: ws => some (ws.foldl jsSpread w)

/-- The `replace` branch: the next list is the batch itself, pushed in
order; previous prices are captured from the pre-ingestion `miners` list
(or cleared, for names that were absent from it). -/
def applyReplace (origMiners : List Miner) (prevPrices : List (String × ℚ))
    (uploadedEntries : List Miner) : List Miner × List (String × ℚ) :=
  uploadedEntries.foldl
    (fun acc newMiner =>
      match origMiners.find? (fun m => m.name == newMiner.name) with
      | some oldMinerData => (acc.1 ++ [newMiner], setKey newMiner.name oldMinerData.price acc.2)
      | none => (acc.1 ++ [newMiner], delKey newMiner.name acc.2))
    ([], prevPrices)

/-- `merged.findIndex` + in-place overwrite for the `merge` branch:
replace the first record of the same name (capturing its pre-overwrite
price), or report that none was found. -/
def mergeOne (newMiner : Miner) : List Miner → Option (List Miner × ℚ)
  | [] => none
  | m :: rest =>
    if m.name == newMiner.name then some (jsSpread m newMiner :: rest, m.price)
    else (mergeOne newMiner rest).map (fun p => (m :: p.1, p.2))

/-- The `merge` branch: start from the current list; for each batch
record, overwrite in place (capturing the pre-overwrite price into
`previousPrices`) or append as new (clearing that name's entry). -/
def applyMerge (currentMinersList : List Miner) (prevPrices : List (String × ℚ))
    (uploadedEntries : List Miner) : List Miner × List (String × ℚ) :=
  uploadedEntries.foldl
    (fun acc newMiner =>
      match mergeOne newMiner acc.1 with
      | some (merged, oldPrice) => (merged, setKey newMiner.name oldPrice acc.2)
      | none => (acc.1 ++ [newMiner], delKey newMiner.name acc.2))
    (currentMinersList, prevPrices)

/-- `appended.findIndex` + in-place overwrite for the `append` branch
(the source duplicates the `merge` code). -/
def appendOne (newMiner : Miner) : List Miner → Option (List Miner × ℚ)
  | [] => none
  | m :: rest =>
    if m.name == newMiner.name then some (jsSpread m newMiner :: rest, m.price)
    else (appendOne newMiner rest).map (fun p => (m :: p.1, p.2))

/-- The `append` branch: add new, update existing if already there. -/
def applyAppend (currentMinersList : List Miner) (prevPrices : List (String × ℚ))
    (uploadedEntries : List Miner) : List Miner × List (String × ℚ) :=
  uploadedEntries.foldl
    (fun acc newMiner =>
      match appendOne newMiner acc.1 with
      | some (appended, oldPrice) => (appended, setKey newMiner.name oldPrice acc.2)
      | none => (acc.1 ++ [newMiner], delKey newMiner.name acc.2))
    (currentMinersList, prevPrices)

/-- The deep pre-mutation snapshot captured at the top of
`actuallyUpdateData` (deep copies are identities on values). -/
def snapshotOfState (st : EngineState) : Snapshot :=
  ⟨some st.miners, some st.priceHistory, some st.knownMiners, some st.minerSpecs,
   some st.maxPrices, some st.previousPrices⟩

/-- The ingestion engine `actuallyUpdateData`: capture the pre-mutation
snapshot, run the per-entry phase over the batch, apply the merge
strategy to the snapshot list and previous-price map, and append the
audit record.  `newId` is the generated record id and `now` the
ingestion instant; the `updatedCount` of the record comes from the
preview of the same staged batch (`uploadPreview?.summary?.updatedCount`). -/
def actuallyUpdateData (st : EngineState) (uploadedEntries : List Miner) (fileName : String)
    (currentStrategy : Strategy) (dateOfUploadData : Nat) (newId : String) (now : Nat) :
    EngineState :=
  let snapshotForHistory := snapshotOfState st
  let acc := uploadedEntries.foldl (ingestEntryStep st.knownMiners)
    ⟨st.priceHistory, st.knownMiners, st.minerSpecs, st.maxPrices, 0⟩
  let mergedPair :=
    match currentStrategy with
    | Strategy.replace => applyReplace st.miners st.previousPrices uploadedEntries
    | Strategy.merge => applyMerge st.miners st.previousPrices uploadedEntries
    | Strategy.append => applyAppend st.miners st.previousPrices uploadedEntries
  let newUploadRecord : UploadRecord :=
    ⟨newId, dateOfUploadData, now, fileName, uploadedEntries.length, acc.countTrulyNewMiners,
     (generateUploadPreview uploadedEntries st.miners currentStrategy).updated.length,
     currentStrategy, some snapshotForHistory⟩
  { miners := mergedPair.1
    priceHistory := acc.priceHistory
    knownMiners := acc.knownMiners
    minerSpecs := acc.minerSpecs
    maxPrices := acc.maxPrices
    previousPrices := mergedPair.2
    uploadHistory := st.uploadHistory ++ [newUploadRecord] }

/-- One confirmed ingestion call, for stating properties of sequences of
ingestions. -/
structure IngestCall where
  entries : List Miner
  fileName : String
  strategy : Strategy
  dataDate : Nat
  newId : String
  now : Nat
deriving DecidableEq, Repr

/-- Apply one ingestion call. -/
def applyIngest (st : EngineState) (c : IngestCall) : EngineState :=
  actuallyUpdateData st c.entries c.fileName c.strategy c.dataDate c.newId c.now

/-- Apply a sequence of ingestion calls in order. -/
def applyIngestAll (st : EngineState) (cs : List IngestCall) : EngineState :=
  cs.foldl applyIngest st

/-! ### Rollback engine (`rollbackUpload`) -/

/-- Result of a rollback attempt: the (possibly unchanged) state and a
success flag (`false` exactly on the "Cannot rollback: Snapshot not
found or invalid" path, which performs no mutation). -/
structure RollbackResult where
  state : EngineState
  ok : Bool
deriving DecidableEq, Repr

/-- The rollback engine: look up the audit record; if it is absent or
lacks its embedded snapshot, fail and change nothing; otherwise replace
each piece of mutable state with the snapshot's field, substituting an
empty container for a missing field.  (The operator confirmation dialog
is assumed answered positively; the audit trail itself is kept.) -/
def rollbackUpload (st : EngineState) (uploadIdToRollback : String) : RollbackResult :=
  match st.uploadHistory.find? (fun u => u.id == uploadIdToRollback) with
  | none => ⟨st, false⟩
  | some uploadToRestore =>
    match uploadToRestore.snapshot with
    | none => ⟨st, false⟩
    | some snap =>
      ⟨{ miners := snap.miners.getD []
         priceHistory := snap.priceHistory.getD []
         knownMiners := dedupKeepFirst (snap.knownMiners.getD [])
         minerSpecs := snap.minerSpecs.getD []
         maxPrices := snap.maxPrices.getD []
         previousPrices := snap.previousPrices.getD []
         uploadHistory := st.uploadHistory }, true⟩

/-! ### History compaction engine (`optimizePriceHistory`) -/

/-- First occurrence per distinct date, in list order: the filling of
`latestDailyMap` (the input is already sorted newest-first, so the first
entry per date is the latest one). -/
def firstPerDate : List (Nat × HistEntry) → List Nat → List (Nat × HistEntry)
  | [], _ => []
  | x :: xs, seen =>
    if x.2.date ∈ seen then firstPerDate xs seen
    else x :: firstPerDate xs (x.2.date :: seen)

/-- Compaction of one item's history.  `cutoff` is the fixed retention
boundary (`thirtyDaysAgo`).  Entries are tagged with their array index
to model the identity-keyed `Map`/`Set` of the source: sort descending
by timestamp (stable), keep the first entry per distinct date
(`latestDailyMap`), add every within-window entry not already kept, and
emit both sequences re-sorted ascending. -/
def optimizeItem (cutoff : Nat) (historyData : MinerHistory) : MinerHistory :=
  let idx := enumF 0 historyData.intraday
  let sortedIntradayDesc := jsSort (fun a b => ltTs b.2 a.2) idx
  let latestDaily := firstPerDate sortedIntradayDesc []
  let windowKept := idx.filter
    (fun p => decide (cutoff ≤ p.2.timestamp) && !((latestDaily.map Prod.fst).contains p.1))
  let finalEntries := latestDaily ++ windowKept
  { daily := (jsSort (fun a b => ltDate a.2 b.2) latestDaily).map Prod.snd
    intraday := (jsSort (fun a b => ltTs a.2 b.2) finalEntries).map Prod.snd }

/-- The compaction engine over the whole history map (each item is
optimized independently; the audit-trail truncation acts on
`uploadHistory` and is not part of this map). -/
def optimizePriceHistory (cutoff : Nat) (currentPriceHistory : List (String × MinerHistory)) :
    List (String × MinerHistory) :=
  currentPriceHistory.map (fun p => (p.1, optimizeItem cutoff p.2))

/-! ### Lemmas about the generic helpers -/

theorem getKey_setKey_self {β : Type} (k : String) (v : β) :
    ∀ (m : List (String × β)), getKey k (setKey k v m) = some v := by
  intro m
  induction m with
  | nil => simp [getKey, setKey]
  | cons p rest ih =>
    by_cases h : p.1 = k
    · simp [getKey, setKey, h]
    · simp [getKey, setKey, h, ih]

theorem getKey_setKey_other {β : Type} (k n : String) (v : β) (hne : n ≠ k) :
    ∀ (m : List (String × β)), getKey n (setKey k v m) = getKey n m := by
  intro m
  have hkn : ¬ k = n := fun h => hne h.symm
  induction m with
  | nil => simp [getKey, setKey, hkn]
  | cons p rest ih =>
    by_cases h : p.1 = k
    · simp [getKey, setKey, h, hkn]
    · simp only [setKey, if_neg h, getKey]
      by_cases h2 : p.1 = n <;> simp [h2, ih]

theorem mem_setKey {β : Type} (k : String) (v : β) :
    ∀ {m : List (String × β)} {p : String × β}, p ∈ setKey k v m → p = (k, v) ∨ p ∈ m := by
  intro m
  induction m with
  | nil => intro p hp; simp [setKey] at hp; exact Or.inl hp
  | cons q rest ih =>
    intro p hp
    by_cases h : q.1 = k
    · simp only [setKey, if_pos h, List.mem_cons] at hp
      rcases hp with h1 | h1
      · exact Or.inl h1
      · exact Or.inr (List.mem_cons_of_mem _ h1)
    · simp only [setKey, if_neg h, List.mem_cons] at hp
      rcases hp with h1 | h1
      · exact Or.inr (h1 ▸ List.mem_cons_self _ _)
      · rcases ih h1 with h2 | h2
        · exact Or.inl h2
        · exact Or.inr (List.mem_cons_of_mem _ h2)

theorem insertLt_perm {α : Type} (lt : α → α → Bool) (x : α) :
    ∀ (l : List α), (insertLt lt x l).Perm (x :: l) := by
  intro l
  induction l with
  | nil => simp [insertLt]
  | cons y ys ih =>
    by_cases h : lt x y
    · simp [insertLt, h]
    · simp only [insertLt, if_neg h]
      exact (ih.cons y).trans (List.Perm.swap x y ys)

theorem foldl_insertLt_perm {α : Type} (lt : α → α → Bool) :
    ∀ (l acc : List α), (l.foldl (fun a x => insertLt lt x a) acc).Perm (acc ++ l) := by
  intro l
  induction l with
  | nil => simp
  | cons x xs ih =>
    intro acc
    simp only [List.foldl_cons]
    refine (ih (insertLt lt x acc)).trans ?_
    have h1 : (insertLt lt x acc ++ xs).Perm ((x :: acc) ++ xs) :=
      (insertLt_perm lt x acc).append_right xs
    refine h1.trans ?_
    simpa using List.perm_middle.symm

theorem jsSort_perm {α : Type} (lt : α → α → Bool) (l : List α) : (jsSort lt l).Perm l := by
  simpa [jsSort] using foldl_insertLt_perm lt l []

theorem mem_jsSort {α : Type} {lt : α → α → Bool} {l : List α} {x : α} :
    x ∈ jsSort lt l ↔ x ∈ l :=
  (jsSort_perm lt l).mem_iff

theorem dedupFrom_of_nodup :
    ∀ (l seen : List String), l.Nodup → (∀ x ∈ l, x ∉ seen) → dedupFrom seen l = l := by
  intro l
  induction l with
  | nil => intro seen _ _; rfl
  | cons x xs ih =>
    intro seen hnd hs
    have hx : x ∉ seen := hs x (List.mem_cons_self x xs)
    have hnd2 : xs.Nodup := hnd.of_cons
    have hxs : ∀ y ∈ xs, y ∉ x :: seen := by
      intro y hy
      simp only [List.mem_cons, not_or]
      exact ⟨fun h => (List.nodup_cons.mp hnd).1 (h ▸ hy), hs y (List.mem_cons_of_mem _ hy)⟩
    simp [dedupFrom, hx, ih (x :: seen) hnd2 hxs]

theorem dedupKeepFirst_of_nodup (l : List String) (h : l.Nodup) : dedupKeepFirst l = l :=
  dedupFrom_of_nodup l [] h (by simp)

/-! ### C3: rollback semantics -/

/-- C3: `rollback(auditId)` fails exactly when no audit record has that
id (the `find?` is empty) or the found record lacks its embedded
snapshot, and in that case every piece of mutable state is unchanged;
otherwise it succeeds and every piece of mutable state is replaced by
the corresponding snapshot field with empty containers substituted for
missing fields (the known-names set is rebuilt from the stored list à la
`new Set`, keeping first occurrences), the audit trail staying intact. -/
theorem rollbackUpload_spec (st : EngineState) (targetId : String) :
    ((rollbackUpload st targetId).ok = false ↔
      ((st.uploadHistory.find? (fun u => u.id == targetId)).bind UploadRecord.snapshot) = none)
    ∧ ((rollbackUpload st targetId).ok = false → (rollbackUpload st targetId).state = st)
    ∧ (∀ u ∈ st.uploadHistory.find? (fun r => r.id == targetId), ∀ snap ∈ u.snapshot,
        (rollbackUpload st targetId).ok = true
        ∧ (rollbackUpload st targetId).state.miners = snap.miners.getD []
        ∧ (rollbackUpload st targetId).state.priceHistory = snap.priceHistory.getD []
        ∧ (rollbackUpload st targetId).state.knownMiners =
            dedupKeepFirst (snap.knownMiners.getD [])
        ∧ (rollbackUpload st targetId).state.minerSpecs = snap.minerSpecs.getD []
        ∧ (rollbackUpload st targetId).state.maxPrices = snap.maxPrices.getD []
        ∧ (rollbackUpload st targetId).state.previousPrices = snap.previousPrices.getD []
        ∧ (rollbackUpload st targetId).state.uploadHistory = st.uploadHistory) := by
  cases hfind : st.uploadHistory.find? (fun u => u.id == targetId) with
  | none => simp [rollbackUpload, hfind]
  | some u =>
    cases hsnap : u.snapshot with
    | none => simp [rollbackUpload, hfind, hsnap]
    | some snap => simp [rollbackUpload, hfind, hsnap]

/-! ### C2: the preview's percentage price change -/

/-- C2 counterexample: with an existing snapshot record of price `0` and
a valid batch record of price `50` for the same name, the preview
classifies the row as updated with an infinite price change (the JS
division `(50 - 0) / 0 * 100` yields `Infinity`), not `0` as the claim
states for a zero old price. -/
theorem preview_priceChange_zero_old_counterexample :
    (generateUploadPreview [⟨"A", 100, 50, none, none, none, none, 2, 2, "u1"⟩]
        [⟨"A", 100, 0, none, none, none, none, 1, 1, "u0"⟩] Strategy.merge).updated
      = [⟨"A", 0, 50, JsNum.posInf, 100, 100, none⟩]
    ∧ JsNum.posInf ≠ JsNum.fin 0 := by
  exact ⟨by decide, by decide⟩

/-- C2 amended: for a batch record matched against an existing snapshot
record, the computed price change is `(new - old) / old * 100` whenever
the old price is nonzero (in particular `0` whenever the prices are
equal), and when the old price is `0` and the prices differ it is an
infinity (positive iff the new price is larger), not `0`. -/
theorem priceChangeVal_spec (newPrice oldPrice : ℚ) :
    (newPrice = oldPrice → priceChangeVal newPrice oldPrice = JsNum.fin 0)
    ∧ (oldPrice ≠ 0 →
        priceChangeVal newPrice oldPrice = JsNum.fin ((newPrice - oldPrice) / oldPrice * 100))
    ∧ (oldPrice = 0 → newPrice ≠ oldPrice →
        priceChangeVal newPrice oldPrice
          = (if 0 < newPrice then JsNum.posInf else JsNum.negInf)) := by
  refine ⟨fun h => by simp [priceChangeVal, h], fun h => ?_, fun h0 hne => ?_⟩
  · by_cases he : newPrice = oldPrice
    · subst he
      simp [priceChangeVal, h]
    · simp [priceChangeVal, he, h]
  · subst h0
    simp [priceChangeVal, hne]

/-! ### C10: the `removed` classification uses the raw batch -/

theorem removed_foldl_mem (newMinerEntries : List Miner) :
    ∀ (currentMinersList : List Miner) (r0 : List String) (n : String),
      (n ∈ currentMinersList.foldl (fun r existingMiner =>
          if newMinerEntries.any (fun nm => nm.name == existingMiner.name) then r
          else r ++ [existingMiner.name]) r0) ↔
      (n ∈ r0 ∨ ∃ m ∈ currentMinersList, m.name = n ∧
        ¬ (∃ e ∈ newMinerEntries, e.name = m.name)) := by
  intro currentMinersList
  induction currentMinersList with
  | nil => simp
  | cons m rest ih =>
    intro r0 n
    simp only [List.foldl_cons]
    by_cases h : newMinerEntries.any (fun nm => nm.name == m.name)
    · rw [if_pos h, ih]
      simp only [List.any_eq_true, beq_iff_eq] at h
      constructor
      · rintro (h1 | ⟨m2, hm2, h2⟩)
        · exact Or.inl h1
        · exact Or.inr ⟨m2, List.mem_cons_of_mem _ hm2, h2⟩
      · rintro (h1 | ⟨m2, hm2, h2, h3⟩)
        · exact Or.inl h1
        · rcases List.mem_cons.mp hm2 with hm2 | hm2
          · exact absurd (hm2 ▸ h) h3
          · exact Or.inr ⟨m2, hm2, h2, h3⟩
    · rw [if_neg h, ih]
      simp only [List.any_eq_true, beq_iff_eq] at h
      constructor
      · rintro (h1 | ⟨m2, hm2, h2⟩)
        · rcases List.mem_append.mp h1 with h1 | h1
          · exact Or.inl h1
          · have hn : n = m.name := by simpa using h1
            exact Or.inr ⟨m, List.mem_cons_self _ _, hn.symm, h⟩
        · exact Or.inr ⟨m2, List.mem_cons_of_mem _ hm2, h2⟩
      · rintro (h1 | ⟨m2, hm2, h2, h3⟩)
        · exact Or.inl (List.mem_append.mpr (Or.inl h1))
        · rcases List.mem_cons.mp hm2 with hm2 | hm2
          · exact Or.inl (List.mem_append.mpr (Or.inr (by simp [hm2, h2.symm])))
          · exact Or.inr ⟨m2, hm2, h2, h3⟩

/-- C10: in a `replace` preview, a name is classified `removed` exactly
when some current-snapshot record carries it and *no raw batch record*
carries it — validity of the batch records is not re-checked, so a
current name appearing only in invalid batch rows is not removed. -/
theorem preview_removed_matches_raw_names (newMinerEntries currentMinersList : List Miner)
    (n : String) :
    n ∈ (generateUploadPreview newMinerEntries currentMinersList Strategy.replace).removed ↔
      ((∃ m ∈ currentMinersList, m.name = n) ∧ ∀ e ∈ newMinerEntries, e.name ≠ n) := by
  show n ∈ currentMinersList.foldl _ [] ↔ _
  rw [removed_foldl_mem]
  simp only [List.not_mem_nil, false_or]
  constructor
  · rintro ⟨m, hm, hname, hno⟩
    exact ⟨⟨m, hm, hname⟩, fun e he heq => hno ⟨e, he, heq.trans hname.symm⟩⟩
  · rintro ⟨⟨m, hm, hname⟩, hall⟩
    exact ⟨m, hm, hname, fun ⟨e, he, heq⟩ => hall e he (heq.trans hname)⟩

/-! ### C7: `merge` and `append` are the same strategy -/

theorem mergeOne_eq_appendOne (nm : Miner) : ∀ l, mergeOne nm l = appendOne nm l := by
  intro l
  induction l with
  | nil => rfl
  | cons m rest ih => simp [mergeOne, appendOne, ih]

theorem applyMerge_eq_applyAppend (currentMinersList : List Miner)
    (prevPrices : List (String × ℚ)) (uploadedEntries : List Miner) :
    applyMerge currentMinersList prevPrices uploadedEntries
      = applyAppend currentMinersList prevPrices uploadedEntries := by
  unfold applyMerge applyAppend
  congr 1
  funext acc nm
  rw [mergeOne_eq_appendOne]

/-- C7: the `merge` and `append` branches have identical semantics: the
same next snapshot list and the same previous-price map, for every
starting list, previous-price map and batch — both at the level of the
strategy step and through a whole ingestion. -/
theorem merge_append_equivalent (currentMinersList : List Miner)
    (prevPrices : List (String × ℚ)) (uploadedEntries : List Miner) :
    applyMerge currentMinersList prevPrices uploadedEntries
      = applyAppend currentMinersList prevPrices uploadedEntries
    ∧ (∀ (st : EngineState) (fileName : String) (dataDate : Nat) (newId : String) (now : Nat),
        (actuallyUpdateData st uploadedEntries fileName Strategy.merge dataDate newId now).miners
          = (actuallyUpdateData st uploadedEntries fileName Strategy.append dataDate newId
              now).miners
        ∧ (actuallyUpdateData st uploadedEntries fileName Strategy.merge dataDate newId
              now).previousPrices
          = (actuallyUpdateData st uploadedEntries fileName Strategy.append dataDate newId
              now).previousPrices) := by
  refine ⟨applyMerge_eq_applyAppend _ _ _, fun st fileName dataDate newId now => ?_⟩
  constructor
  · show (applyMerge st.miners st.previousPrices uploadedEntries).1
      = (applyAppend st.miners st.previousPrices uploadedEntries).1
    rw [applyMerge_eq_applyAppend]
  · show (applyMerge st.miners st.previousPrices uploadedEntries).2
      = (applyAppend st.miners st.previousPrices uploadedEntries).2
    rw [applyMerge_eq_applyAppend]

/-! ### C1: ingest-then-rollback round trip -/

theorem find?_fresh_append (l : List UploadRecord) (r : UploadRecord) (tid : String)
    (hid : r.id = tid) (hfresh : ∀ u ∈ l, u.id ≠ tid) :
    (l ++ [r]).find? (fun u => u.id == tid) = some r := by
  rw [List.find?_append]
  have h1 : l.find? (fun u => u.id == tid) = none :=
    List.find?_eq_none.mpr (fun u hu => by simp [hfresh u hu])
  simp [h1, List.find?, hid]

theorem rollback_of_find (st : EngineState) (tid : String) (u : UploadRecord) (snap : Snapshot)
    (hfind : st.uploadHistory.find? (fun x => x.id == tid) = some u)
    (hsnap : u.snapshot = some snap) :
    rollbackUpload st tid =
      ⟨{ miners := snap.miners.getD []
         priceHistory := snap.priceHistory.getD []
         knownMiners := dedupKeepFirst (snap.knownMiners.getD [])
         minerSpecs := snap.minerSpecs.getD []
         maxPrices := snap.maxPrices.getD []
         previousPrices := snap.previousPrices.getD []
         uploadHistory := st.uploadHistory }, true⟩ := by
  simp [rollbackUpload, hfind, hsnap]

/-- C1: for any state, batch and strategy, ingesting and then rolling
back to the audit record created by that ingestion restores the six
pieces of mutable state exactly.  Hypotheses: the generated record id is
fresh (the source uses `crypto.randomUUID`), and the known-names set is
duplicate-free (it is a JS `Set`). -/
theorem ingest_rollback_roundtrip (st : EngineState) (uploadedEntries : List Miner)
    (fileName : String) (strat : Strategy) (dataDate : Nat) (newId : String) (now : Nat)
    (hfresh : ∀ u ∈ st.uploadHistory, u.id ≠ newId) (hnodup : st.knownMiners.Nodup) :
    (rollbackUpload (actuallyUpdateData st uploadedEntries fileName strat dataDate newId now)
        newId).ok = true
    ∧ (rollbackUpload (actuallyUpdateData st uploadedEntries fileName strat dataDate newId now)
        newId).state.miners = st.miners
    ∧ (rollbackUpload (actuallyUpdateData st uploadedEntries fileName strat dataDate newId now)
        newId).state.priceHistory = st.priceHistory
    ∧ (rollbackUpload (actuallyUpdateData st uploadedEntries fileName strat dataDate newId now)
        newId).state.knownMiners = st.knownMiners
    ∧ (rollbackUpload (actuallyUpdateData st uploadedEntries fileName strat dataDate newId now)
        newId).state.minerSpecs = st.minerSpecs
    ∧ (rollbackUpload (actuallyUpdateData st uploadedEntries fileName strat dataDate newId now)
        newId).state.maxPrices = st.maxPrices
    ∧ (rollbackUpload (actuallyUpdateData st uploadedEntries fileName strat dataDate newId now)
        newId).state.previousPrices = st.previousPrices := by
  have hhist : (actuallyUpdateData st uploadedEntries fileName strat dataDate newId
      now).uploadHistory
      = st.uploadHistory ++
        [⟨newId, dataDate, now, fileName, uploadedEntries.length,
          (uploadedEntries.foldl (ingestEntryStep st.knownMiners)
            ⟨st.priceHistory, st.knownMiners, st.minerSpecs, st.maxPrices, 0⟩).countTrulyNewMiners,
          (generateUploadPreview uploadedEntries st.miners strat).updated.length, strat,
          some (snapshotOfState st)⟩] := rfl
  have hfind : (actuallyUpdateData st uploadedEntries fileName strat dataDate newId
      now).uploadHistory.find? (fun x => x.id == newId)
      = some ⟨newId, dataDate, now, fileName, uploadedEntries.length,
          (uploadedEntries.foldl (ingestEntryStep st.knownMiners)
            ⟨st.priceHistory, st.knownMiners, st.minerSpecs, st.maxPrices, 0⟩).countTrulyNewMiners,
          (generateUploadPreview uploadedEntries st.miners strat).updated.length, strat,
          some (snapshotOfState st)⟩ := by
    rw [hhist]
    exact find?_fresh_append _ _ _ rfl hfresh
  have hroll := rollback_of_find
    (actuallyUpdateData st uploadedEntries fileName strat dataDate newId now) newId _
    (snapshotOfState st) hfind rfl
  rw [hroll]
  refine ⟨rfl, rfl, rfl, ?_, rfl, rfl, rfl⟩
  exact dedupKeepFirst_of_nodup st.knownMiners hnodup

/-! ### C8: uniqueness of names in the snapshot list -/

/-- C8 counterexample: ingesting a batch that repeats the name "A" with
strategy `replace` leaves two records named "A" in the snapshot list
(the `replace` branch pushes every batch record without deduplication). -/
theorem replace_duplicate_names_counterexample :
    ((actuallyUpdateData initState
        [⟨"A", 100, 1, none, none, none, none, 1, 1, "x1"⟩,
         ⟨"A", 100, 2, none, none, none, none, 1, 1, "x2"⟩]
        "f" Strategy.replace 1 "id1" 1).miners.map Miner.name) = ["A", "A"]
    ∧ ¬ (((actuallyUpdateData initState
        [⟨"A", 100, 1, none, none, none, none, 1, 1, "x1"⟩,
         ⟨"A", 100, 2, none, none, none, none, 1, 1, "x2"⟩]
        "f" Strategy.replace 1 "id1" 1).miners.map Miner.name)).Nodup := by
  exact ⟨by decide, by decide⟩

theorem applyReplace_fst (origMiners : List Miner) :
    ∀ (uploadedEntries : List Miner) (acc : List Miner × List (String × ℚ)),
      (uploadedEntries.foldl
        (fun acc newMiner =>
          match origMiners.find? (fun m => m.name == newMiner.name) with
          | some oldMinerData =>
              (acc.1 ++ [newMiner], setKey newMiner.name oldMinerData.price acc.2)
          | none => (acc.1 ++ [newMiner], delKey newMiner.name acc.2)) acc).1
      = acc.1 ++ uploadedEntries := by
  intro uploadedEntries
  induction uploadedEntries with
  | nil => simp
  | cons e es ih =>
    intro acc
    simp only [List.foldl_cons]
    cases h : origMiners.find? (fun m => m.name == e.name) with
    | none => rw [ih]; simp
    | some old => rw [ih]; simp

theorem mergeOne_none_iff (nm : Miner) :
    ∀ (cur : List Miner), mergeOne nm cur = none ↔ ∀ m ∈ cur, m.name ≠ nm.name := by
  intro cur
  induction cur with
  | nil => simp [mergeOne]
  | cons m rest ih =>
    by_cases h : m.name == nm.name
    · simp only [mergeOne, if_pos h]
      constructor
      · intro hc; exact absurd hc (by simp)
      · intro hall
        exact absurd (beq_iff_eq.mp h) (hall m (List.mem_cons_self m rest))
    · simp only [mergeOne, if_neg h]
      rw [Option.map_eq_none', ih]
      constructor
      · intro hall x hx
        rcases List.mem_cons.mp hx with hx | hx
        · exact hx ▸ fun hc => h (beq_iff_eq.mpr hc)
        · exact hall x hx
      · intro hall x hx
        exact hall x (List.mem_cons_of_mem _ hx)

theorem mergeOne_some_names (nm : Miner) :
    ∀ (cur l2 : List Miner) (q : ℚ), mergeOne nm cur = some (l2, q) →
      l2.map Miner.name = cur.map Miner.name := by
  intro cur
  induction cur with
  | nil => intro l2 q h; exact absurd h (by simp [mergeOne])
  | cons m rest ih =>
    intro l2 q h
    by_cases hm : m.name == nm.name
    · simp only [mergeOne, if_pos hm, Option.some_inj, Prod.mk.injEq] at h
      obtain ⟨h1, _⟩ := h
      rw [← h1]
      simp [jsSpread, beq_iff_eq.mp hm]
    · simp only [mergeOne, if_neg hm] at h
      cases hrec : mergeOne nm rest with
      | none => rw [hrec, Option.map_none'] at h; exact absurd h (by simp)
      | some p =>
        rw [hrec, Option.map_some', Option.some_inj, Prod.mk.injEq] at h
        obtain ⟨h1, _⟩ := h
        rw [← h1]
        simp [ih p.1 p.2 (by rw [hrec, Prod.mk.eta])]

theorem mergeOne_some_find_self (nm : Miner) :
    ∀ (cur l2 : List Miner) (q : ℚ), mergeOne nm cur = some (l2, q) →
      ∃ m0, cur.find? (fun m => m.name == nm.name) = some m0 ∧ q = m0.price ∧
        l2.find? (fun m => m.name == nm.name) = some (jsSpread m0 nm) := by
  intro cur
  induction cur with
  | nil => intro l2 q h; exact absurd h (by simp [mergeOne])
  | cons m rest ih =>
    intro l2 q h
    by_cases hm : m.name == nm.name
    · simp only [mergeOne, if_pos hm, Option.some_inj, Prod.mk.injEq] at h
      obtain ⟨h1, h2⟩ := h
      refine ⟨m, ?_, h2.symm, ?_⟩
      · simp [List.find?, hm]
      · rw [← h1]
        simp [List.find?, jsSpread]
    · simp only [mergeOne, if_neg hm] at h
      cases hrec : mergeOne nm rest with
      | none => rw [hrec, Option.map_none'] at h; exact absurd h (by simp)
      | some p =>
        rw [hrec, Option.map_some', Option.some_inj, Prod.mk.injEq] at h
        obtain ⟨h1, h2⟩ := h
        obtain ⟨m0, hf0, hq, hf2⟩ := ih p.1 p.2 (by rw [hrec, Prod.mk.eta])
        refine ⟨m0, ?_, by rw [← h2]; exact hq, ?_⟩
        · simp only [List.find?, hm]
          exact hf0
        · rw [← h1]
          simp only [List.find?, hm]
          exact hf2

theorem mergeOne_some_find_other (nm : Miner) (n : String) (hne : ¬ (nm.name = n)) :
    ∀ (cur l2 : List Miner) (q : ℚ), mergeOne nm cur = some (l2, q) →
      l2.find? (fun m => m.name == n) = cur.find? (fun m => m.name == n) := by
  intro cur
  induction cur with
  | nil => intro l2 q h; exact absurd h (by simp [mergeOne])
  | cons m rest ih =>
    intro l2 q h
    by_cases hm : m.name == nm.name
    · simp only [mergeOne, if_pos hm, Option.some_inj, Prod.mk.injEq] at h
      obtain ⟨h1, _⟩ := h
      rw [← h1]
      have hmn : (m.name == n) = false := by
        simp only [beq_iff_eq] at hm
        simp only [beq_eq_false_iff_ne, ne_eq]
        exact fun hc => hne (hm ▸ hc)
      have hnmn : (nm.name == n) = false := by
        simp only [beq_eq_false_iff_ne, ne_eq]
        exact hne
      simp [List.find?, jsSpread, hmn, hnmn]
    · simp only [mergeOne, if_neg hm] at h
      cases hrec : mergeOne nm rest with
      | none => rw [hrec, Option.map_none'] at h; exact absurd h (by simp)
      | some p =>
        rw [hrec, Option.map_some', Option.some_inj, Prod.mk.injEq] at h
        obtain ⟨h1, _⟩ := h
        rw [← h1]
        simp only [List.find?]
        cases hmn : m.name == n with
        | true => rfl
        | false => exact ih p.1 p.2 (by rw [hrec, Prod.mk.eta])

theorem applyMerge_names_nodup (uploadedEntries : List Miner) :
    ∀ (cur : List Miner) (pp : List (String × ℚ)),
      (cur.map Miner.name).Nodup →
      (((applyMerge cur pp uploadedEntries).1.map Miner.name)).Nodup := by
  induction uploadedEntries with
  | nil => intro cur pp h; exact h
  | cons e es ih =>
    intro cur pp h
    cases hm : mergeOne e cur with
    | some p =>
      obtain ⟨l2, q⟩ := p
      have hstep : applyMerge cur pp (e :: es) = applyMerge l2 (setKey e.name q pp) es := by
        simp [applyMerge, hm]
      rw [hstep]
      exact ih l2 _ (by rw [mergeOne_some_names e cur l2 q hm]; exact h)
    | none =>
      have hstep : applyMerge cur pp (e :: es)
          = applyMerge (cur ++ [e]) (delKey e.name pp) es := by
        simp [applyMerge, hm]
      rw [hstep]
      have hnotin : ∀ m ∈ cur, m.name ≠ e.name := (mergeOne_none_iff e cur).mp hm
      refine ih (cur ++ [e]) _ ?_
      rw [List.map_append]
      simp only [List.map_cons, List.map_nil]
      rw [List.nodup_append]
      refine ⟨h, List.nodup_singleton _, ?_⟩
      intro a ha
      simp only [List.mem_singleton]
      rcases List.mem_map.mp ha with ⟨m, hmem, hname⟩
      exact fun hc => hnotin m hmem (hname.symm ▸ hc ▸ rfl)

theorem lastWrite_nil (prior : Option Miner) : lastWrite prior [] = prior := by
  cases prior <;> rfl

theorem applyMerge_find (uploadedEntries : List Miner) :
    ∀ (cur : List Miner) (pp : List (String × ℚ)) (n : String),
      ((applyMerge cur pp uploadedEntries).1.find? (fun m => m.name == n))
        = lastWrite (cur.find? (fun m => m.name == n))
            (uploadedEntries.filter (fun e => e.name == n)) := by
  induction uploadedEntries with
  | nil => intro cur pp n; simp [applyMerge, lastWrite_nil]
  | cons e es ih =>
    intro cur pp n
    by_cases hen : e.name = n
    · have hbeq : (e.name == n) = true := beq_iff_eq.mpr hen
      have hfil : (e :: es).filter (fun x => x.name == n)
          = e :: es.filter (fun x => x.name == n) := by
        simp [List.filter_cons, hbeq]
      cases hm : mergeOne e cur with
      | some p =>
        obtain ⟨l2, q⟩ := p
        have step : (applyMerge cur pp (e :: es)).1
            = (applyMerge l2 (setKey e.name q pp) es).1 := by
          simp [applyMerge, hm]
        rw [step, ih]
        obtain ⟨m0, hfind0, _, hfind2⟩ := mergeOne_some_find_self e cur l2 q hm
        rw [hen] at hfind0 hfind2
        rw [hfind2, hfind0, hfil]
        rfl
      | none =>
        have step : (applyMerge cur pp (e :: es)).1
            = (applyMerge (cur ++ [e]) (delKey e.name pp) es).1 := by
          simp [applyMerge, hm]
        rw [step, ih]
        have hnone : cur.find? (fun m => m.name == n) = none := by
          refine List.find?_eq_none.mpr (fun m hmem => ?_)
          have := (mergeOne_none_iff e cur).mp hm m hmem
          simp only [beq_iff_eq]
          exact fun hc => this (hc.trans hen.symm)
        have hone : List.find? (fun m => m.name == n) [e] = some e := by
          simp [List.find?, hbeq]
        rw [List.find?_append, hnone, hone, hfil]
        rfl
    · have hbeq : (e.name == n) = false := by
        simp only [beq_eq_false_iff_ne, ne_eq]
        exact hen
      have hfil : (e :: es).filter (fun x => x.name == n)
          = es.filter (fun x => x.name == n) := by
        simp [List.filter_cons, hbeq]
      cases hm : mergeOne e cur with
      | some p =>
        obtain ⟨l2, q⟩ := p
        have step : (applyMerge cur pp (e :: es)).1
            = (applyMerge l2 (setKey e.name q pp) es).1 := by
          simp [applyMerge, hm]
        rw [step, ih, hfil,
          mergeOne_some_find_other e n (fun hc => hen hc) cur l2 q hm]
      | none =>
        have step : (applyMerge cur pp (e :: es)).1
            = (applyMerge (cur ++ [e]) (delKey e.name pp) es).1 := by
          simp [applyMerge, hm]
        rw [step, ih, hfil, List.find?_append]
        have hone : List.find? (fun m => m.name == n) [e] = none := by
          simp [List.find?, hbeq]
        rw [hone]
        simp

/-- C8 amended: under `merge` and `append` the snapshot list keeps at
most one record per distinct name (provided the previous list did), and
a name's surviving record is the prior record spread-updated in place by
each batch record of that name in order (keys the normalizer may omit
keep their previous values) — or, when the name is new, the first batch
record spread-updated by the rest; under `replace` the snapshot list is
exactly the batch, so repeated batch names yield duplicate records. -/
theorem snapshot_names_amended :
    (∀ (st : EngineState) (uploadedEntries : List Miner) (fileName : String) (dataDate : Nat)
        (newId : String) (now : Nat),
      (actuallyUpdateData st uploadedEntries fileName Strategy.replace dataDate newId
          now).miners = uploadedEntries)
    ∧ (∀ (st : EngineState) (uploadedEntries : List Miner) (fileName : String) (dataDate : Nat)
        (newId : String) (now : Nat),
        ((st.miners.map Miner.name).Nodup →
          ((actuallyUpdateData st uploadedEntries fileName Strategy.merge dataDate newId
              now).miners.map Miner.name).Nodup
          ∧ ((actuallyUpdateData st uploadedEntries fileName Strategy.append dataDate newId
              now).miners.map Miner.name).Nodup)
        ∧ (∀ (n : String),
            ((actuallyUpdateData st uploadedEntries fileName Strategy.merge dataDate newId
                now).miners.find? (fun m => m.name == n))
              = lastWrite (st.miners.find? (fun m => m.name == n))
                  (uploadedEntries.filter (fun e => e.name == n)))) := by
  refine ⟨fun st es fn d id now => ?_, fun st es fn d id now => ⟨fun hnd => ⟨?_, ?_⟩, fun n => ?_⟩⟩
  · show (applyReplace st.miners st.previousPrices es).1 = es
    exact (applyReplace_fst st.miners es ([], st.previousPrices)).trans (List.nil_append es)
  · exact applyMerge_names_nodup es st.miners st.previousPrices hnd
  · show (((applyAppend st.miners st.previousPrices es).1.map Miner.name)).Nodup
    rw [← applyMerge_eq_applyAppend]
    exact applyMerge_names_nodup es st.miners st.previousPrices hnd
  · exact applyMerge_find es st.miners st.previousPrices n

/-! ### C9: max prices never decrease -/

theorem foldl_maxAt_skip (n : String) :
    ∀ (es : List Miner) (a : ℚ), (∀ e ∈ es, e.name ≠ n) →
      es.foldl (fun a e => if e.name = n then max a e.price else a) a = a := by
  intro es
  induction es with
  | nil => intro a _; rfl
  | cons e es ih =>
    intro a h
    simp only [List.foldl_cons, if_neg (h e (List.mem_cons_self e es))]
    exact ih a (fun x hx => h x (List.mem_cons_of_mem _ hx))

theorem foldl_maxAt_le (n : String) :
    ∀ (es : List Miner) (a b : ℚ), a ≤ b →
      a ≤ es.foldl (fun a e => if e.name = n then max a e.price else a) b := by
  intro es
  induction es with
  | nil => intro a b h; exact h
  | cons e es ih =>
    intro a b h
    simp only [List.foldl_cons]
    by_cases he : e.name = n
    · rw [if_pos he]
      exact ih a _ (h.trans (le_max_left b e.price))
    · rw [if_neg he]
      exact ih a b h

theorem ingest_fold_maxPrices (pre : List String) (n : String) :
    ∀ (uploadedEntries : List Miner) (acc : IngestAcc),
      getKey n ((uploadedEntries.foldl (ingestEntryStep pre) acc).maxPrices)
        = if uploadedEntries.any (fun e => e.name == n) then
            some (uploadedEntries.foldl (fun a e => if e.name = n then max a e.price else a)
              ((getKey n acc.maxPrices).getD 0))
          else getKey n acc.maxPrices := by
  intro uploadedEntries
  induction uploadedEntries with
  | nil => intro acc; simp
  | cons e es ih =>
    intro acc
    simp only [List.foldl_cons, List.any_cons]
    by_cases he : e.name = n
    · have hbeq : (e.name == n) = true := beq_iff_eq.mpr he
      have hget : getKey n ((ingestEntryStep pre acc e).maxPrices)
          = some (max ((getKey n acc.maxPrices).getD 0) e.price) := by
        show getKey n (setKey e.name (max ((getKey e.name acc.maxPrices).getD 0) e.price)
          acc.maxPrices) = _
        rw [he]
        exact getKey_setKey_self n _ acc.maxPrices
      rw [ih (ingestEntryStep pre acc e), hget]
      simp only [hbeq, Bool.true_or, if_true, if_pos he, Option.getD_some]
      by_cases hes : es.any (fun e => e.name == n)
      · rw [if_pos hes]
      · rw [if_neg hes]
        have hskip : ∀ x ∈ es, x.name ≠ n := by
          intro x hx hc
          apply hes
          exact List.any_eq_true.mpr ⟨x, hx, beq_iff_eq.mpr hc⟩
        rw [foldl_maxAt_skip n es _ hskip]
    · have hbeq : (e.name == n) = false := by
        simp only [beq_eq_false_iff_ne, ne_eq]
        exact he
      have hget : getKey n ((ingestEntryStep pre acc e).maxPrices)
          = getKey n acc.maxPrices := by
        show getKey n (setKey e.name (max ((getKey e.name acc.maxPrices).getD 0) e.price)
          acc.maxPrices) = _
        exact getKey_setKey_other e.name n _ (fun hc => he hc.symm) acc.maxPrices
      rw [ih (ingestEntryStep pre acc e), hget]
      simp only [hbeq, Bool.false_or, if_neg he]

/-- C9: after one ingestion, a batch name's max price is the running
maximum of its prior value (`maxPrices[key] || 0`) and every price
ingested for that name, other names are untouched; consequently across
any sequence of ingestions the value at a name never decreases. -/
theorem maxPrices_monotone_spec :
    (∀ (st : EngineState) (uploadedEntries : List Miner) (fileName : String) (strat : Strategy)
        (dataDate : Nat) (newId : String) (now : Nat) (n : String),
       getKey n (actuallyUpdateData st uploadedEntries fileName strat dataDate newId
           now).maxPrices
         = if uploadedEntries.any (fun e => e.name == n) then
             some (uploadedEntries.foldl (fun a e => if e.name = n then max a e.price else a)
               ((getKey n st.maxPrices).getD 0))
           else getKey n st.maxPrices)
    ∧ (∀ (st : EngineState) (cs : List IngestCall) (n : String) (m : ℚ),
        getKey n st.maxPrices = some m →
          ∃ k, getKey n (applyIngestAll st cs).maxPrices = some k ∧ m ≤ k) := by
  have hstep : ∀ (st : EngineState) (uploadedEntries : List Miner) (fileName : String)
      (strat : Strategy) (dataDate : Nat) (newId : String) (now : Nat) (n : String),
      getKey n (actuallyUpdateData st uploadedEntries fileName strat dataDate newId
          now).maxPrices
        = if uploadedEntries.any (fun e => e.name == n) then
            some (uploadedEntries.foldl (fun a e => if e.name = n then max a e.price else a)
              ((getKey n st.maxPrices).getD 0))
          else getKey n st.maxPrices := by
    intro st es fn strat d id now n
    show getKey n ((es.foldl (ingestEntryStep st.knownMiners)
      ⟨st.priceHistory, st.knownMiners, st.minerSpecs, st.maxPrices, 0⟩).maxPrices) = _
    exact ingest_fold_maxPrices st.knownMiners n es _
  refine ⟨hstep, fun st cs => ?_⟩
  induction cs generalizing st with
  | nil => intro n m h; exact ⟨m, h, le_refl m⟩
  | cons c cs ih =>
    intro n m h
    have hone : ∃ k, getKey n (applyIngest st c).maxPrices = some k ∧ m ≤ k := by
      show ∃ k, getKey n (actuallyUpdateData st c.entries c.fileName c.strategy c.dataDate
        c.newId c.now).maxPrices = some k ∧ m ≤ k
      rw [hstep st c.entries c.fileName c.strategy c.dataDate c.newId c.now n]
      by_cases hany : c.entries.any (fun e => e.name == n)
      · rw [if_pos hany]
        refine ⟨_, rfl, ?_⟩
        rw [h]
        exact foldl_maxAt_le n c.entries m m (le_refl m)
      · rw [if_neg hany]
        exact ⟨m, h, le_refl m⟩
    obtain ⟨k, hk, hmk⟩ := hone
    obtain ⟨k2, hk2, hkk2⟩ := ih (applyIngest st c) n k hk
    exact ⟨k2, hk2, hmk.trans hkk2⟩

/-- C1 witness: the round trip at a concrete one-record batch over the
empty initial state. -/
theorem ingest_rollback_roundtrip_witness :
    (rollbackUpload (actuallyUpdateData initState
        [⟨"A", 100, 1, none, none, none, none, 1, 1, "x1"⟩] "f" Strategy.merge 1 "id1" 1)
      "id1").ok = true
    ∧ (rollbackUpload (actuallyUpdateData initState
        [⟨"A", 100, 1, none, none, none, none, 1, 1, "x1"⟩] "f" Strategy.merge 1 "id1" 1)
      "id1").state.miners = initState.miners
    ∧ (rollbackUpload (actuallyUpdateData initState
        [⟨"A", 100, 1, none, none, none, none, 1, 1, "x1"⟩] "f" Strategy.merge 1 "id1" 1)
      "id1").state.priceHistory = initState.priceHistory
    ∧ (rollbackUpload (actuallyUpdateData initState
        [⟨"A", 100, 1, none, none, none, none, 1, 1, "x1"⟩] "f" Strategy.merge 1 "id1" 1)
      "id1").state.knownMiners = initState.knownMiners
    ∧ (rollbackUpload (actuallyUpdateData initState
        [⟨"A", 100, 1, none, none, none, none, 1, 1, "x1"⟩] "f" Strategy.merge 1 "id1" 1)
      "id1").state.minerSpecs = initState.minerSpecs
    ∧ (rollbackUpload (actuallyUpdateData initState
        [⟨"A", 100, 1, none, none, none, none, 1, 1, "x1"⟩] "f" Strategy.merge 1 "id1" 1)
      "id1").state.maxPrices = initState.maxPrices
    ∧ (rollbackUpload (actuallyUpdateData initState
        [⟨"A", 100, 1, none, none, none, none, 1, 1, "x1"⟩] "f" Strategy.merge 1 "id1" 1)
      "id1").state.previousPrices = initState.previousPrices :=
  ingest_rollback_roundtrip initState
    [⟨"A", 100, 1, none, none, none, none, 1, 1, "x1"⟩] "f" Strategy.merge 1 "id1" 1
    (by intro u hu; exact absurd hu (List.not_mem_nil u)) List.nodup_nil

/-! ### C6: `daily` is latest-per-date of `intraday` -/

theorem foldl_latest_mem :
    ∀ (xs : List HistEntry) (x : HistEntry),
      xs.foldl (fun latest current =>
        if latest.timestamp < current.timestamp then current else latest) x ∈ x :: xs := by
  intro xs
  induction xs with
  | nil => intro x; exact List.mem_cons_self x []
  | cons c cs ih =>
    intro x
    simp only [List.foldl_cons]
    by_cases h : x.timestamp < c.timestamp
    · rw [if_pos h]
      exact List.mem_cons_of_mem _ (ih c)
    · rw [if_neg h]
      rcases List.mem_cons.mp (ih x) with h1 | h1
      · rw [h1]
        exact List.mem_cons_self x _
      · exact List.mem_cons_of_mem _ (List.mem_cons_of_mem _ h1)

theorem getKey_some_mem {β : Type} (k : String) :
    ∀ (m : List (String × β)) (v : β), getKey k m = some v → (k, v) ∈ m := by
  intro m
  induction m with
  | nil => intro v h; exact absurd h (by simp [getKey])
  | cons p rest ih =>
    intro v h
    by_cases hp : p.1 = k
    · simp only [getKey, if_pos hp, Option.some_inj] at h
      have : (k, v) = p := by
        rw [← hp, ← h]
      rw [this]
      exact List.mem_cons_self p rest
    · simp only [getKey, if_neg hp] at h
      exact List.mem_cons_of_mem _ (ih v h)

theorem set_at_found_dates (target : Nat) (latest : HistEntry) (hl : latest.date = target) :
    ∀ (daily : List HistEntry) (i : Nat),
      daily.findIdx? (fun d => d.date == target) = some i →
      (daily.set i latest).map HistEntry.date = daily.map HistEntry.date := by
  intro daily
  induction daily with
  | nil => intro i h; exact absurd h (by simp)
  | cons d rest ih =>
    intro i h
    rw [List.findIdx?_cons] at h
    by_cases hd : (d.date == target) = true
    · rw [if_pos hd, Option.some_inj] at h
      rw [← h]
      simp only [List.set_cons_zero, List.map_cons]
      rw [hl, beq_iff_eq.mp hd]
    · rw [if_neg hd, List.findIdx?_succ, Option.map_eq_some'] at h
      obtain ⟨j, hj, hji⟩ := h
      rw [← hji]
      simp only [List.set_cons_succ, List.map_cons]
      rw [ih j hj]

/-- The per-item history update preserves the invariant: every `daily`
entry occurs in `intraday` by value, and `daily` holds at most one entry
per date. -/
theorem updateMinerHistory_wf (h : MinerHistory) (entry : Miner)
    (hsub : ∀ d ∈ h.daily, d ∈ h.intraday)
    (hnd : ((h.daily.map HistEntry.date)).Nodup) :
    (∀ d ∈ (updateMinerHistory h entry).daily, d ∈ (updateMinerHistory h entry).intraday)
    ∧ (((updateMinerHistory h entry).daily.map HistEntry.date)).Nodup := by
  have hmem1 : ∀ d ∈ h.daily, d ∈ jsSort ltTs (h.intraday ++ [histEntryOf entry]) := by
    intro d hd
    rw [mem_jsSort]
    exact List.mem_append_left _ (hsub d hd)
  simp only [updateMinerHistory]
  split
  · exact ⟨hmem1, hnd⟩
  next x xs hfd =>
    have hlatest : xs.foldl (fun latest current =>
        if latest.timestamp < current.timestamp then current else latest) x
        ∈ jsSort ltTs (h.intraday ++ [histEntryOf entry]) := by
      have h1 := foldl_latest_mem xs x
      rw [← hfd] at h1
      exact List.mem_of_mem_filter h1
    have hldate : (xs.foldl (fun latest current =>
        if latest.timestamp < current.timestamp then current else latest) x).date
        = entry.date := by
      have h1 := foldl_latest_mem xs x
      rw [← hfd] at h1
      have h2 := List.of_mem_filter h1
      exact beq_iff_eq.mp h2
    split
    next i hidx =>
      refine ⟨fun d hd => ?_, ?_⟩
      · have hd2 : d ∈ jsSort ltDate (h.daily.set i (xs.foldl (fun latest current =>
          if latest.timestamp < current.timestamp then current else latest) x)) := hd
        rw [mem_jsSort] at hd2
        show d ∈ jsSort ltTs (h.intraday ++ [histEntryOf entry])
        rcases List.mem_or_eq_of_mem_set hd2 with hmem | heq
        · exact hmem1 d hmem
        · rw [heq]
          exact hlatest
      · show ((jsSort ltDate (h.daily.set i (xs.foldl (fun latest current =>
          if latest.timestamp < current.timestamp then current else latest) x))).map
          HistEntry.date).Nodup
        have hperm := ((jsSort_perm ltDate (h.daily.set i (xs.foldl (fun latest current =>
          if latest.timestamp < current.timestamp then current else latest) x))).map
          HistEntry.date).symm
        refine hperm.nodup ?_
        rw [set_at_found_dates entry.date _ hldate h.daily i hidx]
        exact hnd
    next hidx =>
      refine ⟨fun d hd => ?_, ?_⟩
      · have hd2 : d ∈ jsSort ltDate (h.daily ++ [xs.foldl (fun latest current =>
          if latest.timestamp < current.timestamp then current else latest) x]) := hd
        rw [mem_jsSort] at hd2
        show d ∈ jsSort ltTs (h.intraday ++ [histEntryOf entry])
        rcases List.mem_append.mp hd2 with hmem | heq
        · exact hmem1 d hmem
        · rw [List.mem_singleton.mp heq]
          exact hlatest
      · show ((jsSort ltDate (h.daily ++ [xs.foldl (fun latest current =>
          if latest.timestamp < current.timestamp then current else latest) x])).map
          HistEntry.date).Nodup
        have hperm := ((jsSort_perm ltDate (h.daily ++ [xs.foldl (fun latest current =>
          if latest.timestamp < current.timestamp then current else latest) x])).map
          HistEntry.date).symm
        refine hperm.nodup ?_
        rw [List.map_append]
        rw [List.nodup_append]
        refine ⟨hnd, by simp, ?_⟩
        intro a ha
        simp only [List.map_cons, List.map_nil, List.mem_singleton]
        intro hc
        rw [List.findIdx?_eq_none_iff] at hidx
        rcases List.mem_map.mp ha with ⟨d, hdm, hdd⟩
        have := hidx d hdm
        rw [hc, hldate] at hdd
        simp [hdd.symm] at this

theorem ingestEntryStep_wf (pre : List String) (acc : IngestAcc) (entry : Miner)
    (hwf : ∀ p ∈ acc.priceHistory,
      (∀ d ∈ p.2.daily, d ∈ p.2.intraday) ∧ ((p.2.daily.map HistEntry.date)).Nodup) :
    ∀ p ∈ (ingestEntryStep pre acc entry).priceHistory,
      (∀ d ∈ p.2.daily, d ∈ p.2.intraday) ∧ ((p.2.daily.map HistEntry.date)).Nodup := by
  intro p hp
  have hp2 : p ∈ setKey entry.name
      (updateMinerHistory ((getKey entry.name acc.priceHistory).getD ⟨[], []⟩) entry)
      acc.priceHistory := hp
  rcases mem_setKey _ _ hp2 with heq | hmem
  · rw [heq]
    cases hget : getKey entry.name acc.priceHistory with
    | none =>
      have hw := updateMinerHistory_wf ⟨[], []⟩ entry (by simp) (by simp)
      simpa [hget] using hw
    | some h0 =>
      have hmem0 := getKey_some_mem entry.name acc.priceHistory h0 hget
      have hw0 := hwf (entry.name, h0) hmem0
      have hw := updateMinerHistory_wf h0 entry hw0.1 hw0.2
      simpa [hget] using hw
  · exact hwf p hmem

theorem ingest_fold_wf (pre : List String) :
    ∀ (uploadedEntries : List Miner) (acc : IngestAcc),
      (∀ p ∈ acc.priceHistory,
        (∀ d ∈ p.2.daily, d ∈ p.2.intraday) ∧ ((p.2.daily.map HistEntry.date)).Nodup) →
      ∀ p ∈ (uploadedEntries.foldl (ingestEntryStep pre) acc).priceHistory,
        (∀ d ∈ p.2.daily, d ∈ p.2.intraday) ∧ ((p.2.daily.map HistEntry.date)).Nodup := by
  intro uploadedEntries
  induction uploadedEntries with
  | nil => intro acc h; exact h
  | cons e es ih =>
    intro acc h
    exact ih (ingestEntryStep pre acc e) (ingestEntryStep_wf pre acc e h)

theorem actuallyUpdateData_wf (st : EngineState) (uploadedEntries : List Miner)
    (fileName : String) (strat : Strategy) (dataDate : Nat) (newId : String) (now : Nat)
    (hwf : ∀ p ∈ st.priceHistory,
      (∀ d ∈ p.2.daily, d ∈ p.2.intraday) ∧ ((p.2.daily.map HistEntry.date)).Nodup) :
    ∀ p ∈ (actuallyUpdateData st uploadedEntries fileName strat dataDate newId
        now).priceHistory,
      (∀ d ∈ p.2.daily, d ∈ p.2.intraday) ∧ ((p.2.daily.map HistEntry.date)).Nodup := by
  intro p hp
  have hp2 : p ∈ (uploadedEntries.foldl (ingestEntryStep st.knownMiners)
      ⟨st.priceHistory, st.knownMiners, st.minerSpecs, st.maxPrices, 0⟩).priceHistory := hp
  exact ingest_fold_wf st.knownMiners uploadedEntries _ hwf p hp2

/-- C6: after any sequence of ingestions of valid batches starting from
the empty state, every `daily` entry of every item occurs by value (so
with the same date) in that item's `intraday`, and `daily` holds at most
one entry per date.  (The proof does not need the validity hypothesis:
the invariant holds for arbitrary batches.) -/
theorem daily_intraday_invariant (cs : List IngestCall)
    (hvalid : ∀ c ∈ cs, ∀ e ∈ c.entries, e.name ≠ "" ∧ 0 < e.price ∧ 0 < e.hashrate) :
    ∀ p ∈ (applyIngestAll initState cs).priceHistory,
      (∀ d ∈ p.2.daily, d ∈ p.2.intraday) ∧ ((p.2.daily.map HistEntry.date)).Nodup := by
  have main : ∀ (cs2 : List IngestCall) (st : EngineState),
      (∀ p ∈ st.priceHistory,
        (∀ d ∈ p.2.daily, d ∈ p.2.intraday) ∧ ((p.2.daily.map HistEntry.date)).Nodup) →
      ∀ p ∈ (applyIngestAll st cs2).priceHistory,
        (∀ d ∈ p.2.daily, d ∈ p.2.intraday) ∧ ((p.2.daily.map HistEntry.date)).Nodup := by
    intro cs2
    induction cs2 with
    | nil => intro st h; exact h
    | cons c rest ih =>
      intro st h
      exact ih (applyIngest st c)
        (actuallyUpdateData_wf st c.entries c.fileName c.strategy c.dataDate c.newId c.now h)
  exact main cs initState (by simp [initState])

/-- C6 witness: the invariant evaluated at the item produced by a
concrete one-record ingestion. -/
theorem daily_intraday_invariant_witness :
    (∀ d ∈ ((getKey "A" ((applyIngestAll initState
          [⟨[⟨"A", 100, 1, none, none, none, none, 1, 1, "x1"⟩], "f", Strategy.merge, 1,
            "id1", 1⟩]).priceHistory)).getD ⟨[], []⟩).daily,
        d ∈ ((getKey "A" ((applyIngestAll initState
          [⟨[⟨"A", 100, 1, none, none, none, none, 1, 1, "x1"⟩], "f", Strategy.merge, 1,
            "id1", 1⟩]).priceHistory)).getD ⟨[], []⟩).intraday)
    ∧ (((((getKey "A" ((applyIngestAll initState
          [⟨[⟨"A", 100, 1, none, none, none, none, 1, 1, "x1"⟩], "f", Strategy.merge, 1,
            "id1", 1⟩]).priceHistory)).getD ⟨[], []⟩).daily.map HistEntry.date)).Nodup) :=
  daily_intraday_invariant
    [⟨[⟨"A", 100, 1, none, none, none, none, 1, 1, "x1"⟩], "f", Strategy.merge, 1, "id1", 1⟩]
    (by decide)
    ("A", (getKey "A" ((applyIngestAll initState
      [⟨[⟨"A", 100, 1, none, none, none, none, 1, 1, "x1"⟩], "f", Strategy.merge, 1,
        "id1", 1⟩]).priceHistory)).getD ⟨[], []⟩)
    (by decide)
/-! ### Stable-sort machinery for the compaction engine

`jsSort` is a stable insertion sort.  To reason about ties we tag list
elements with distinct naturals (array positions) and characterise the
output as the unique list sorted by the comparator with ties in tag
order. -/

theorem insertLt_pairwise {α : Type} (lt : α → α → Bool) (t : α → Nat)
    (H1 : ∀ a b, lt a b = true → lt b a = false)
    (H2 : ∀ a b c, lt a b = false → lt b c = false → lt a c = false) (x : α) :
    ∀ (acc : List α),
      acc.Pairwise (fun a b => lt b a = false ∧ (lt a b = false → t a < t b)) →
      (∀ a ∈ acc, lt a x = false → lt x a = false → t a < t x) →
      (insertLt lt x acc).Pairwise
        (fun a b => lt b a = false ∧ (lt a b = false → t a < t b)) := by
  intro acc
  induction acc with
  | nil => intro _ _; simp [insertLt]
  | cons y ys ih =>
    intro hacc hx
    cases hxy : lt x y with
    | true =>
      rw [insertLt, if_pos hxy]
      refine List.Pairwise.cons ?_ hacc
      intro z hz
      rcases List.mem_cons.mp hz with hz | hz
      · subst hz
        exact ⟨H1 x z hxy, fun hf => absurd hxy (by simp [hf])⟩
      · have hyz := (List.pairwise_cons.mp hacc).1 z hz
        refine ⟨H2 z y x hyz.1 (H1 x y hxy), fun hxz => ?_⟩
        exact absurd (H2 x z y hxz hyz.1) (by simp [hxy])
    | false =>
      rw [insertLt, if_neg (by simp [hxy])]
      refine List.Pairwise.cons ?_ (ih (List.pairwise_cons.mp hacc).2
        (fun a ha => hx a (List.mem_cons_of_mem _ ha)))
      intro z hz
      have hz2 : z ∈ x :: ys := (insertLt_perm lt x ys).mem_iff.mp hz
      rcases List.mem_cons.mp hz2 with hz2 | hz2
      · subst hz2
        exact ⟨hxy, fun hyx => hx y (List.mem_cons_self y ys) hyx hxy⟩
      · exact (List.pairwise_cons.mp hacc).1 z hz2

theorem jsSort_pairwise_stable {α : Type} (lt : α → α → Bool) (t : α → Nat)
    (H1 : ∀ a b, lt a b = true → lt b a = false)
    (H2 : ∀ a b c, lt a b = false → lt b c = false → lt a c = false) :
    ∀ (l acc : List α),
      acc.Pairwise (fun a b => lt b a = false ∧ (lt a b = false → t a < t b)) →
      (∀ a ∈ acc, ∀ b ∈ l, lt a b = false → lt b a = false → t a < t b) →
      l.Pairwise (fun a b => lt a b = false → lt b a = false → t a < t b) →
      (l.foldl (fun acc x => insertLt lt x acc) acc).Pairwise
        (fun a b => lt b a = false ∧ (lt a b = false → t a < t b)) := by
  intro l
  induction l with
  | nil => intro acc hacc _ _; exact hacc
  | cons x xs ih =>
    intro acc hacc hcross hl
    simp only [List.foldl_cons]
    refine ih (insertLt lt x acc)
      (insertLt_pairwise lt t H1 H2 x acc hacc
        (fun a ha => hcross a ha x (List.mem_cons_self x xs))) ?_
      (List.pairwise_cons.mp hl).2
    intro a ha b hb
    have ha2 : a ∈ x :: acc := (insertLt_perm lt x acc).mem_iff.mp ha
    rcases List.mem_cons.mp ha2 with ha2 | ha2
    · subst ha2
      exact (List.pairwise_cons.mp hl).1 b hb
    · exact hcross a ha2 b (List.mem_cons_of_mem _ hb)

theorem jsSort_sorted_stable {α : Type} (lt : α → α → Bool) (t : α → Nat)
    (H1 : ∀ a b, lt a b = true → lt b a = false)
    (H2 : ∀ a b c, lt a b = false → lt b c = false → lt a c = false)
    (l : List α) (hl : l.Pairwise (fun a b => lt a b = false → lt b a = false → t a < t b)) :
    (jsSort lt l).Pairwise (fun a b => lt b a = false ∧ (lt a b = false → t a < t b)) :=
  jsSort_pairwise_stable lt t H1 H2 l [] (by simp) (by simp) hl

theorem insertLt_map {α β : Type} (lt : β → β → Bool) (f : α → β) (x : α) :
    ∀ (l : List α),
      (insertLt (fun a b => lt (f a) (f b)) x l).map f = insertLt lt (f x) (l.map f) := by
  intro l
  induction l with
  | nil => rfl
  | cons y ys ih =>
    cases h : lt (f x) (f y) with
    | true => simp [insertLt, h]
    | false => simp [insertLt, h, ih]

theorem jsSort_map {α β : Type} (lt : β → β → Bool) (f : α → β) :
    ∀ (l acc : List α),
      (l.foldl (fun acc x => insertLt (fun a b => lt (f a) (f b)) x acc) acc).map f
        = (l.map f).foldl (fun acc x => insertLt lt x acc) (acc.map f) := by
  intro l
  induction l with
  | nil => intro acc; rfl
  | cons x xs ih =>
    intro acc
    simp only [List.foldl_cons, List.map_cons]
    rw [ih, insertLt_map]

theorem jsSort_map_eq {α β : Type} (lt : β → β → Bool) (f : α → β) (l : List α) :
    (jsSort (fun a b => lt (f a) (f b)) l).map f = jsSort lt (l.map f) := by
  simpa [jsSort] using jsSort_map lt f l []

theorem pairwise_perm_eq {α : Type} {R : α → α → Prop}
    (hasym : ∀ a b, R a b → R b a → False) :
    ∀ {l₁ l₂ : List α}, l₁.Perm l₂ → l₁.Pairwise R → l₂.Pairwise R → l₁ = l₂ := by
  intro l₁
  induction l₁ with
  | nil => intro l₂ hp _ _; exact (hp.symm.eq_nil).symm
  | cons a l ih =>
    intro l₂ hp h1 h2
    cases l₂ with
    | nil => exact absurd hp.symm (by simp [List.Perm.nil_eq, List.nil_perm])
    | cons b l₂t =>
      have hab : a = b := by
        have hamem : a ∈ b :: l₂t := hp.mem_iff.mp (List.mem_cons_self a l)
        rcases List.mem_cons.mp hamem with h | h
        · exact h
        · have hba : R b a := (List.pairwise_cons.mp h2).1 a h
          have hbmem : b ∈ a :: l := hp.mem_iff.mpr (List.mem_cons_self b l₂t)
          rcases List.mem_cons.mp hbmem with hb | hb
          · exact hb.symm
          · exact absurd ((List.pairwise_cons.mp h1).1 b hb)
              (fun hc => hasym b a hba hc)
      subst hab
      have hp2 : l.Perm l₂t := hp.cons_inv
      rw [ih hp2 (List.pairwise_cons.mp h1).2 (List.pairwise_cons.mp h2).2]

/-! ### Enumeration lemmas -/

theorem enumF_map_snd {α : Type} : ∀ (n : Nat) (l : List α), (enumF n l).map Prod.snd = l := by
  intro n l
  induction l generalizing n with
  | nil => rfl
  | cons x xs ih => simp [enumF, ih]

theorem enumF_fst_bound {α : Type} :
    ∀ (n : Nat) (l : List α) (p : Nat × α), p ∈ enumF n l → n ≤ p.1 ∧ p.1 < n + l.length := by
  intro n l
  induction l generalizing n with
  | nil => intro p hp; exact absurd hp (by simp [enumF])
  | cons x xs ih =>
    intro p hp
    rcases List.mem_cons.mp hp with h | h
    · subst h; simp
    · have := ih (n + 1) p h
      constructor
      · omega
      · simp only [List.length_cons]
        omega

theorem enumF_fst_lt {α : Type} :
    ∀ (n : Nat) (l : List α), (enumF n l).Pairwise (fun a b => a.1 < b.1) := by
  intro n l
  induction l generalizing n with
  | nil => exact List.Pairwise.nil
  | cons x xs ih =>
    refine List.Pairwise.cons ?_ (ih (n + 1))
    intro b hb
    have := (enumF_fst_bound (n + 1) xs b hb).1
    simp only []
    omega

theorem enumF_mem_snd {α : Type} :
    ∀ (n : Nat) (l : List α) (p : Nat × α), p ∈ enumF n l → p.2 ∈ l := by
  intro n l
  induction l generalizing n with
  | nil => intro p hp; exact absurd hp (by simp [enumF])
  | cons x xs ih =>
    intro p hp
    rcases List.mem_cons.mp hp with h | h
    · rw [h]; exact List.mem_cons_self x xs
    · exact List.mem_cons_of_mem _ (ih (n + 1) p h)

theorem enumF_append {α : Type} :
    ∀ (n : Nat) (l₁ l₂ : List α),
      enumF n (l₁ ++ l₂) = enumF n l₁ ++ enumF (n + l₁.length) l₂ := by
  intro n l₁
  induction l₁ generalizing n with
  | nil => intro l₂; simp [enumF]
  | cons x xs ih =>
    intro l₂
    show (n, x) :: enumF (n + 1) (xs ++ l₂)
      = (n, x) :: (enumF (n + 1) xs ++ enumF (n + (xs.length + 1)) l₂)
    rw [ih (n + 1) l₂]
    have h : n + 1 + xs.length = n + (xs.length + 1) := by omega
    rw [h]

theorem enumF_map {α β : Type} (f : α → β) :
    ∀ (n : Nat) (l : List α), enumF n (l.map f) = (enumF n l).map (fun p => (p.1, f p.2)) := by
  intro n l
  induction l generalizing n with
  | nil => rfl
  | cons x xs ih => simp [enumF, ih]

theorem enumF_snd_pairwise {α : Type} {R : α → α → Prop} :
    ∀ (n : Nat) {l : List α}, l.Pairwise R → (enumF n l).Pairwise (fun a b => R a.2 b.2) := by
  intro n l
  induction l generalizing n with
  | nil => intro _; exact List.Pairwise.nil
  | cons x xs ih =>
    intro h
    refine List.Pairwise.cons ?_ (ih (n + 1) (List.pairwise_cons.mp h).2)
    intro b hb
    exact (List.pairwise_cons.mp h).1 b.2 (enumF_mem_snd (n + 1) xs b hb)

theorem pairwise_fst_rel {α : Type} {R : (Nat × α) → (Nat × α) → Prop} :
    ∀ {l : List (Nat × α)}, l.Pairwise R → l.Pairwise (fun a b => a.1 < b.1) →
      ∀ {a b : Nat × α}, a ∈ l → b ∈ l → a.1 < b.1 → R a b := by
  intro l
  induction l with
  | nil => intro _ _ a b ha; exact absurd ha (by simp)
  | cons x xs ih =>
    intro hR hT a b ha hb hab
    rcases List.mem_cons.mp ha with ha | ha
    · rcases List.mem_cons.mp hb with hb | hb
      · exfalso
        rw [ha, hb] at hab
        omega
      · rw [ha]
        exact (List.pairwise_cons.mp hR).1 b hb
    · rcases List.mem_cons.mp hb with hb | hb
      · exfalso
        have := (List.pairwise_cons.mp hT).1 a ha
        rw [hb] at hab
        omega
      · exact ih (List.pairwise_cons.mp hR).2 (List.pairwise_cons.mp hT).2 ha hb hab

theorem pairwise_fst_nodup {α : Type} {l : List (Nat × α)}
    (hT : l.Pairwise (fun a b => a.1 < b.1)) : l.Nodup := by
  refine hT.imp_of_mem ?_
  intro a b _ _ hab hc
  rw [hc] at hab
  omega

theorem mem_fst_eq_unique {α : Type} {l : List (Nat × α)}
    (hT : l.Pairwise (fun a b => a.1 < b.1)) :
    ∀ {a b : Nat × α}, a ∈ l → b ∈ l → a.1 = b.1 → a = b := by
  intro a b ha hb hab
  by_cases h : a = b
  · exact h
  · rcases List.getElem_of_mem ha with ⟨i, hi, rfl⟩
    rcases List.getElem_of_mem hb with ⟨j, hj, rfl⟩
    rcases Nat.lt_trichotomy i j with hij | hij | hij
    · have := List.pairwise_iff_getElem.mp hT i j hi hj hij
      omega
    · subst hij; rfl
    · have := List.pairwise_iff_getElem.mp hT j i hj hi hij
      omega

/-! ### The compaction selection order -/

/-- "Appears earlier in the stable descending-timestamp sort of an
index-tagged list": strictly larger timestamp, or a tie with a smaller
original index. -/
def DLex (a b : Nat × HistEntry) : Prop :=
  b.2.timestamp < a.2.timestamp ∨ (a.2.timestamp = b.2.timestamp ∧ a.1 < b.1)

/-- "Appears earlier in the stable ascending-timestamp sort of an
index-ordered list": strictly smaller timestamp, or a tie with a smaller
index. -/
def ALex (a b : Nat × HistEntry) : Prop :=
  a.2.timestamp < b.2.timestamp ∨ (a.2.timestamp = b.2.timestamp ∧ a.1 < b.1)

theorem DLex_asymm (a b : Nat × HistEntry) : DLex a b → DLex b a → False := by
  simp only [DLex]
  omega

theorem ALex_asymm (a b : Nat × HistEntry) : ALex a b → ALex b a → False := by
  simp only [ALex]
  omega

theorem descSort_pairwise_DLex (l : List (Nat × HistEntry))
    (hl : l.Pairwise (fun a b => a.1 < b.1)) :
    (jsSort (fun a b => ltTs b.2 a.2) l).Pairwise DLex := by
  have h := jsSort_sorted_stable (fun a b : Nat × HistEntry => ltTs b.2 a.2) Prod.fst
    (fun a b hab => by simp only [ltTs, decide_eq_true_eq] at hab
                       simp only [ltTs, decide_eq_false_iff_not]
                       omega)
    (fun a b c h1 h2 => by simp only [ltTs, decide_eq_false_iff_not] at h1 h2 ⊢
                           omega)
    l (hl.imp (fun hab _ _ => hab))
  refine h.imp ?_
  intro a b hab
  obtain ⟨h1, h2⟩ := hab
  simp only [ltTs, decide_eq_false_iff_not] at h1
  simp only [DLex]
  by_cases hts : b.2.timestamp < a.2.timestamp
  · exact Or.inl hts
  · refine Or.inr ⟨by omega, ?_⟩
    refine h2 ?_
    simp only [ltTs, decide_eq_false_iff_not]
    omega

theorem ascSort_pairwise_ALex (l : List (Nat × HistEntry))
    (hl : l.Pairwise (fun a b =>
      ltTs a.2 b.2 = false → ltTs b.2 a.2 = false → a.1 < b.1)) :
    (jsSort (fun a b => ltTs a.2 b.2) l).Pairwise ALex := by
  have h := jsSort_sorted_stable (fun a b : Nat × HistEntry => ltTs a.2 b.2) Prod.fst
    (fun a b hab => by simp only [ltTs, decide_eq_true_eq] at hab
                       simp only [ltTs, decide_eq_false_iff_not]
                       omega)
    (fun a b c h1 h2 => by simp only [ltTs, decide_eq_false_iff_not] at h1 h2 ⊢
                           omega)
    l hl
  refine h.imp ?_
  intro a b hab
  obtain ⟨h1, h2⟩ := hab
  simp only [ltTs, decide_eq_false_iff_not] at h1
  simp only [ALex]
  by_cases hts : a.2.timestamp < b.2.timestamp
  · exact Or.inl hts
  · refine Or.inr ⟨by omega, ?_⟩
    refine h2 ?_
    simp only [ltTs, decide_eq_false_iff_not]
    omega

/-! ### Lemmas about `firstPerDate` (the `latestDailyMap` selection) -/

theorem firstPerDate_sublist :
    ∀ (d : List (Nat × HistEntry)) (seen : List Nat), (firstPerDate d seen).Sublist d := by
  intro d
  induction d with
  | nil => intro seen; simp [firstPerDate]
  | cons x xs ih =>
    intro seen
    by_cases h : x.2.date ∈ seen
    · rw [firstPerDate, if_pos h]
      exact (ih seen).cons x
    · rw [firstPerDate, if_neg h]
      exact (ih (x.2.date :: seen)).cons₂ x

theorem firstPerDate_dates :
    ∀ (d : List (Nat × HistEntry)) (seen : List Nat),
      ((firstPerDate d seen).map (fun p => p.2.date)).Nodup
      ∧ ∀ p ∈ firstPerDate d seen, p.2.date ∉ seen := by
  intro d
  induction d with
  | nil => intro seen; simp [firstPerDate]
  | cons x xs ih =>
    intro seen
    by_cases h : x.2.date ∈ seen
    · rw [firstPerDate, if_pos h]
      exact ih seen
    · rw [firstPerDate, if_neg h]
      obtain ⟨ihn, ihs⟩ := ih (x.2.date :: seen)
      refine ⟨?_, ?_⟩
      · simp only [List.map_cons, List.nodup_cons]
        refine ⟨?_, ihn⟩
        intro hc
        rcases List.mem_map.mp hc with ⟨p, hp, hpd⟩
        exact (ihs p hp) (hpd ▸ List.mem_cons_self _ _)
      · intro p hp
        rcases List.mem_cons.mp hp with hp | hp
        · rw [hp]; exact h
        · exact fun hc => (ihs p hp) (List.mem_cons_of_mem _ hc)

theorem firstPerDate_cover :
    ∀ (d : List (Nat × HistEntry)) (seen : List Nat) (q : Nat × HistEntry),
      q ∈ d → q.2.date ∉ seen →
      ∃ p ∈ firstPerDate d seen, p.2.date = q.2.date := by
  intro d
  induction d with
  | nil => intro seen q hq; exact absurd hq (by simp)
  | cons x xs ih =>
    intro seen q hq hqs
    by_cases h : x.2.date ∈ seen
    · rw [firstPerDate, if_pos h]
      rcases List.mem_cons.mp hq with hq | hq
      · exact absurd (hq ▸ hqs) (fun hc => hc h)
      · exact ih seen q hq hqs
    · rw [firstPerDate, if_neg h]
      rcases List.mem_cons.mp hq with hq | hq
      · exact ⟨x, List.mem_cons_self _ _, by rw [hq]⟩
      · by_cases hd : q.2.date = x.2.date
        · exact ⟨x, List.mem_cons_self _ _, hd.symm⟩
        · obtain ⟨p, hp, hpd⟩ := ih (x.2.date :: seen) q hq
            (by simp only [List.mem_cons]
                exact fun hc => hc.elim (fun h1 => hd h1) (fun h1 => hqs h1))
          exact ⟨p, List.mem_cons_of_mem _ hp, hpd⟩

theorem firstPerDate_mem_iff :
    ∀ (d : List (Nat × HistEntry)) (seen : List Nat), d.Pairwise DLex →
      ∀ p, (p ∈ firstPerDate d seen ↔
        (p ∈ d ∧ p.2.date ∉ seen ∧ ∀ q ∈ d, q.2.date = p.2.date → p = q ∨ DLex p q)) := by
  intro d
  induction d with
  | nil => intro seen _ p; simp [firstPerDate]
  | cons x xs ih =>
    intro seen hpw p
    have hpw2 := List.pairwise_cons.mp hpw
    by_cases hx : x.2.date ∈ seen
    · rw [firstPerDate, if_pos hx, ih seen hpw2.2 p]
      constructor
      · rintro ⟨h1, h2, h3⟩
        refine ⟨List.mem_cons_of_mem _ h1, h2, ?_⟩
        intro q hq hqd
        rcases List.mem_cons.mp hq with hq | hq
        · exfalso
          apply h2
          rw [← hqd, hq]
          exact hx
        · exact h3 q hq hqd
      · rintro ⟨h1, h2, h3⟩
        rcases List.mem_cons.mp h1 with h1 | h1
        · exact absurd (h1 ▸ h2) (fun hc => hc hx)
        · exact ⟨h1, h2, fun q hq hqd => h3 q (List.mem_cons_of_mem _ hq) hqd⟩
    · rw [firstPerDate, if_neg hx]
      constructor
      · intro hp
        rcases List.mem_cons.mp hp with hp | hp
        · subst hp
          refine ⟨List.mem_cons_self _ _, hx, ?_⟩
          intro q hq hqd
          rcases List.mem_cons.mp hq with hq | hq
          · exact Or.inl hq.symm
          · exact Or.inr (hpw2.1 q hq)
        · obtain ⟨h1, h2, h3⟩ := (ih (x.2.date :: seen) hpw2.2 p).mp hp
          have hne : p.2.date ≠ x.2.date := fun hc => h2 (hc ▸ List.mem_cons_self _ _)
          refine ⟨List.mem_cons_of_mem _ h1, fun hc => h2 (List.mem_cons_of_mem _ hc), ?_⟩
          intro q hq hqd
          rcases List.mem_cons.mp hq with hq | hq
          · exfalso
            apply hne
            rw [← hqd, hq]
          · exact h3 q hq hqd
      · rintro ⟨h1, h2, h3⟩
        rcases List.mem_cons.mp h1 with h1 | h1
        · rw [h1]; exact List.mem_cons_self _ _
        · refine List.mem_cons_of_mem _ ((ih (x.2.date :: seen) hpw2.2 p).mpr
            ⟨h1, ?_, fun q hq hqd => h3 q (List.mem_cons_of_mem _ hq) hqd⟩)
          simp only [List.mem_cons, not_or]
          refine ⟨?_, h2⟩
          intro hc
          have hxp : DLex x p := hpw2.1 p h1
          rcases h3 x (List.mem_cons_self _ _) hc.symm with hpx | hpx
          · rw [← hpx] at hxp
            exact DLex_asymm p p hxp hxp
          · exact DLex_asymm p x hpx hxp
/-! ### Named pieces of `optimizeItem` and their basic facts -/

/-- `sortedIntradayDesc` of `optimizeItem` (index-tagged). -/
def descOf (l : List HistEntry) : List (Nat × HistEntry) :=
  jsSort (fun a b => ltTs b.2 a.2) (enumF 0 l)

/-- `latestDailyMap` of `optimizeItem`, as its insertion-ordered list of
entries. -/
def latOf (l : List HistEntry) : List (Nat × HistEntry) := firstPerDate (descOf l) []

/-- The within-window entries not already kept by `latestDailyMap`. -/
def wkOf (cutoff : Nat) (l : List HistEntry) : List (Nat × HistEntry) :=
  (enumF 0 l).filter
    (fun p => decide (cutoff ≤ p.2.timestamp) && !((latOf l).map Prod.fst).contains p.1)

/-- `finalIntradayEntries` in `Set` insertion order. -/
def finOf (cutoff : Nat) (l : List HistEntry) : List (Nat × HistEntry) :=
  latOf l ++ wkOf cutoff l

theorem optimizeItem_eq (cutoff : Nat) (h : MinerHistory) :
    optimizeItem cutoff h =
      { daily := (jsSort (fun a b => ltDate a.2 b.2) (latOf h.intraday)).map Prod.snd
        intraday :=
          (jsSort (fun a b => ltTs a.2 b.2) (finOf cutoff h.intraday)).map Prod.snd } := rfl

theorem descOf_pairwise (l : List HistEntry) : (descOf l).Pairwise DLex :=
  descSort_pairwise_DLex (enumF 0 l) (enumF_fst_lt 0 l)

theorem descOf_perm (l : List HistEntry) : (descOf l).Perm (enumF 0 l) :=
  jsSort_perm _ _

theorem latOf_sublist (l : List HistEntry) : (latOf l).Sublist (descOf l) :=
  firstPerDate_sublist _ _

theorem latOf_pairwise (l : List HistEntry) : (latOf l).Pairwise DLex :=
  List.Pairwise.sublist (latOf_sublist l) (descOf_pairwise l)

theorem latOf_subset_enum (l : List HistEntry) : ∀ p ∈ latOf l, p ∈ enumF 0 l :=
  fun p hp => (descOf_perm l).subset ((latOf_sublist l).subset hp)

theorem enum_nodup (l : List HistEntry) : (enumF 0 l).Nodup :=
  pairwise_fst_nodup (enumF_fst_lt 0 l)

theorem descOf_nodup (l : List HistEntry) : (descOf l).Nodup :=
  (descOf_perm l).symm.nodup (enum_nodup l)

theorem latOf_nodup (l : List HistEntry) : (latOf l).Nodup :=
  List.Nodup.sublist (latOf_sublist l) (descOf_nodup l)

theorem latOf_mem_iff (l : List HistEntry) (p : Nat × HistEntry) :
    p ∈ latOf l ↔
      (p ∈ enumF 0 l ∧ ∀ q ∈ enumF 0 l, q.2.date = p.2.date → p = q ∨ DLex p q) := by
  rw [latOf, firstPerDate_mem_iff (descOf l) [] (descOf_pairwise l) p]
  constructor
  · rintro ⟨h1, _, h3⟩
    exact ⟨(descOf_perm l).subset h1, fun q hq => h3 q ((descOf_perm l).mem_iff.mpr hq)⟩
  · rintro ⟨h1, h3⟩
    exact ⟨(descOf_perm l).mem_iff.mpr h1, by simp,
      fun q hq => h3 q ((descOf_perm l).mem_iff.mp hq)⟩

theorem latOf_dates_nodup (l : List HistEntry) :
    ((latOf l).map (fun p => p.2.date)).Nodup :=
  (firstPerDate_dates (descOf l) []).1

theorem latOf_cover (l : List HistEntry) :
    ∀ q ∈ enumF 0 l, ∃ p ∈ latOf l, p.2.date = q.2.date := by
  intro q hq
  exact firstPerDate_cover (descOf l) [] q ((descOf_perm l).mem_iff.mpr hq) (by simp)

theorem latOf_max (l : List HistEntry) :
    ∀ p ∈ latOf l, ∀ q ∈ enumF 0 l, q.2.date = p.2.date →
      q.2.timestamp ≤ p.2.timestamp := by
  intro p hp q hq hd
  rcases ((latOf_mem_iff l p).mp hp).2 q hq hd with h | h
  · rw [← h]
  · simp only [DLex] at h
    omega

theorem latOf_fst_mem (l : List HistEntry) {p : Nat × HistEntry} (hp : p ∈ enumF 0 l) :
    (p.1 ∈ (latOf l).map Prod.fst) ↔ p ∈ latOf l := by
  constructor
  · intro h
    rcases List.mem_map.mp h with ⟨s, hs, hfst⟩
    have hse := latOf_subset_enum l s hs
    have heq : s = p := mem_fst_eq_unique (enumF_fst_lt 0 l) hse hp hfst
    rw [← heq]
    exact hs
  · intro h
    exact List.mem_map.mpr ⟨p, h, rfl⟩

theorem wkOf_spec (cutoff : Nat) (l : List HistEntry) {p : Nat × HistEntry}
    (hp : p ∈ wkOf cutoff l) :
    p ∈ enumF 0 l ∧ cutoff ≤ p.2.timestamp ∧ p ∉ latOf l := by
  have h1 := List.mem_of_mem_filter hp
  have h2 := List.of_mem_filter hp
  simp only [Bool.and_eq_true, decide_eq_true_eq, Bool.not_eq_true'] at h2
  refine ⟨h1, h2.1, ?_⟩
  intro hc
  have := (latOf_fst_mem l h1).mpr hc
  have hcont : ((latOf l).map Prod.fst).contains p.1 = true := by
    rw [List.contains_eq_any_beq, List.any_eq_true]
    exact ⟨p.1, this, by simp⟩
  rw [hcont] at h2
  exact absurd h2.2 (by simp)

theorem wkOf_mem (cutoff : Nat) (l : List HistEntry) {p : Nat × HistEntry}
    (hp1 : p ∈ enumF 0 l) (hp2 : cutoff ≤ p.2.timestamp) (hp3 : p ∉ latOf l) :
    p ∈ wkOf cutoff l := by
  refine List.mem_filter.mpr ⟨hp1, ?_⟩
  simp only [Bool.and_eq_true, decide_eq_true_eq, Bool.not_eq_true']
  refine ⟨hp2, ?_⟩
  by_cases hc : ((latOf l).map Prod.fst).contains p.1 = true
  · exfalso
    rw [List.contains_eq_any_beq, List.any_eq_true] at hc
    obtain ⟨i, hi, hbeq⟩ := hc
    have : p.1 ∈ (latOf l).map Prod.fst := by
      have hieq : p.1 = i := by simpa using hbeq
      rw [hieq]
      exact hi
    exact hp3 ((latOf_fst_mem l hp1).mp this)
  · simpa using hc

theorem finOf_nodup (cutoff : Nat) (l : List HistEntry) : (finOf cutoff l).Nodup := by
  rw [finOf, List.nodup_append]
  refine ⟨latOf_nodup l, List.Nodup.sublist (List.filter_sublist _) (enum_nodup l), ?_⟩
  intro p hp hpw
  exact absurd hp (wkOf_spec cutoff l hpw).2.2

theorem finOf_subset_enum (cutoff : Nat) (l : List HistEntry) :
    ∀ p ∈ finOf cutoff l, p ∈ enumF 0 l := by
  intro p hp
  rcases List.mem_append.mp hp with h | h
  · exact latOf_subset_enum l p h
  · exact (wkOf_spec cutoff l h).1

theorem jsSort_sorted_of_comp {α : Type} (lt : α → α → Bool)
    (H1 : ∀ a b, lt a b = true → lt b a = false)
    (H2 : ∀ a b c, lt a b = false → lt b c = false → lt a c = false)
    (l : List α) : (jsSort lt l).Pairwise (fun a b => lt b a = false) := by
  have h2 := jsSort_sorted_stable (fun A B : Nat × α => lt A.2 B.2) Prod.fst
    (fun A B h => H1 A.2 B.2 h) (fun A B C ha hb => H2 A.2 B.2 C.2 ha hb)
    (enumF 0 l) ((enumF_fst_lt 0 l).imp (fun h _ _ => h))
  have h3 := jsSort_map_eq lt Prod.snd (enumF 0 l)
  rw [enumF_map_snd] at h3
  rw [← h3]
  exact List.pairwise_map.mpr (h2.imp (fun hab => hab.1))

/-- The claim's selection predicate: `p` is the kept "maximum-timestamp
entry" for its date — every entry of the same date has a strictly
smaller timestamp, or ties and sits at the same or a later position. -/
def isSelB (idx : List (Nat × HistEntry)) (p : Nat × HistEntry) : Bool :=
  idx.all (fun q => !(q.2.date == p.2.date)
    || decide (q.2.timestamp < p.2.timestamp)
    || (q.2.timestamp == p.2.timestamp && decide (p.1 ≤ q.1)))

theorem isSelB_iff (l : List HistEntry) (p : Nat × HistEntry) (hp : p ∈ enumF 0 l) :
    isSelB (enumF 0 l) p = true ↔
      (∀ q ∈ enumF 0 l, q.2.date = p.2.date → p = q ∨ DLex p q) := by
  rw [isSelB, List.all_eq_true]
  constructor
  · intro h q hq hd
    have h2 := h q hq
    simp only [Bool.or_eq_true, Bool.not_eq_true', beq_eq_false_iff_ne, ne_eq,
      decide_eq_true_eq, Bool.and_eq_true, beq_iff_eq] at h2
    rcases h2 with (h2 | h2) | ⟨h2a, h2b⟩
    · exact absurd hd h2
    · exact Or.inr (Or.inl h2)
    · by_cases hpq : p.1 = q.1
      · exact Or.inl (mem_fst_eq_unique (enumF_fst_lt 0 l) hp hq hpq)
      · exact Or.inr (Or.inr ⟨h2a.symm, by omega⟩)
  · intro h q hq
    simp only [Bool.or_eq_true, Bool.not_eq_true', beq_eq_false_iff_ne, ne_eq,
      decide_eq_true_eq, Bool.and_eq_true, beq_iff_eq]
    by_cases hd : q.2.date = p.2.date
    · rcases h q hq hd with h1 | h1
      · rw [← h1]
        omega
      · simp only [DLex] at h1
        omega
    · omega

theorem latOf_perm_filter (l : List HistEntry) :
    (latOf l).Perm ((enumF 0 l).filter (fun p => isSelB (enumF 0 l) p)) := by
  rw [List.perm_ext_iff_of_nodup (latOf_nodup l)
    (List.Nodup.sublist (List.filter_sublist _) (enum_nodup l))]
  intro p
  rw [List.mem_filter, latOf_mem_iff]
  constructor
  · rintro ⟨h1, h2⟩
    exact ⟨h1, (isSelB_iff l p h1).mpr h2⟩
  · rintro ⟨h1, h2⟩
    exact ⟨h1, (isSelB_iff l p h1).mp h2⟩

theorem finOf_perm_filter (cutoff : Nat) (l : List HistEntry) :
    (finOf cutoff l).Perm ((enumF 0 l).filter
      (fun p => isSelB (enumF 0 l) p || decide (cutoff ≤ p.2.timestamp))) := by
  rw [List.perm_ext_iff_of_nodup (finOf_nodup cutoff l)
    (List.Nodup.sublist (List.filter_sublist _) (enum_nodup l))]
  intro p
  rw [List.mem_filter]
  constructor
  · intro hp
    rcases List.mem_append.mp hp with h | h
    · have h1 := latOf_subset_enum l p h
      refine ⟨h1, ?_⟩
      rw [Bool.or_eq_true]
      exact Or.inl ((isSelB_iff l p h1).mpr ((latOf_mem_iff l p).mp h).2)
    · obtain ⟨h1, h2, _⟩ := wkOf_spec cutoff l h
      refine ⟨h1, ?_⟩
      rw [Bool.or_eq_true]
      exact Or.inr (by simpa using h2)
  · rintro ⟨h1, h2⟩
    rw [Bool.or_eq_true] at h2
    by_cases hsel : isSelB (enumF 0 l) p = true
    · exact List.mem_append.mpr (Or.inl ((latOf_mem_iff l p).mpr
        ⟨h1, (isSelB_iff l p h1).mp hsel⟩))
    · have hwin : cutoff ≤ p.2.timestamp := by
        rcases h2 with h2 | h2
        · exact absurd h2 hsel
        · simpa using h2
      have hnl : p ∉ latOf l := fun hc =>
        hsel ((isSelB_iff l p h1).mpr ((latOf_mem_iff l p).mp hc).2)
      exact List.mem_append.mpr (Or.inr (wkOf_mem cutoff l h1 hwin hnl))

/-- C5: compaction of one item keeps, as its new `intraday`, exactly the
union of (a) the maximum-timestamp entry of each distinct date (ties
resolved towards the earliest-ingested entry, `isSelB`) and (b) every
entry within the retention window, re-sorted ascending by timestamp; the
new `daily` is exactly the set (a) sorted ascending by date, one entry
per date. -/
theorem optimizeItem_spec (cutoff : Nat) (h : MinerHistory) :
    ((optimizeItem cutoff h).intraday).Perm
        (((enumF 0 h.intraday).filter (fun p => isSelB (enumF 0 h.intraday) p
          || decide (cutoff ≤ p.2.timestamp))).map Prod.snd)
    ∧ ((optimizeItem cutoff h).intraday).Pairwise (fun a b => a.timestamp ≤ b.timestamp)
    ∧ ((optimizeItem cutoff h).daily).Perm
        (((enumF 0 h.intraday).filter (fun p => isSelB (enumF 0 h.intraday) p)).map Prod.snd)
    ∧ ((optimizeItem cutoff h).daily).Pairwise (fun a b => a.date ≤ b.date)
    ∧ (((optimizeItem cutoff h).daily.map HistEntry.date)).Nodup := by
  rw [optimizeItem_eq]
  refine ⟨?_, ?_, ?_, ?_, ?_⟩
  · exact ((jsSort_perm _ _).map Prod.snd).trans
      ((finOf_perm_filter cutoff h.intraday).map Prod.snd)
  · have h3 := jsSort_map_eq ltTs Prod.snd (finOf cutoff h.intraday)
    show ((jsSort (fun a b => ltTs a.2 b.2) (finOf cutoff h.intraday)).map
      Prod.snd).Pairwise _
    rw [h3]
    refine (jsSort_sorted_of_comp ltTs
      (fun a b hab => by simp only [ltTs, decide_eq_true_eq] at hab
                         simp only [ltTs, decide_eq_false_iff_not]
                         omega)
      (fun a b c h1 h2 => by simp only [ltTs, decide_eq_false_iff_not] at h1 h2 ⊢
                             omega) _).imp ?_
    intro a b hab
    simp only [ltTs, decide_eq_false_iff_not] at hab
    omega
  · exact ((jsSort_perm _ _).map Prod.snd).trans
      ((latOf_perm_filter h.intraday).map Prod.snd)
  · have h3 := jsSort_map_eq ltDate Prod.snd (latOf h.intraday)
    show ((jsSort (fun a b => ltDate a.2 b.2) (latOf h.intraday)).map
      Prod.snd).Pairwise _
    rw [h3]
    refine (jsSort_sorted_of_comp ltDate
      (fun a b hab => by simp only [ltDate, decide_eq_true_eq] at hab
                         simp only [ltDate, decide_eq_false_iff_not]
                         omega)
      (fun a b c h1 h2 => by simp only [ltDate, decide_eq_false_iff_not] at h1 h2 ⊢
                             omega) _).imp ?_
    intro a b hab
    simp only [ltDate, decide_eq_false_iff_not] at hab
    omega
  · show (((jsSort (fun a b => ltDate a.2 b.2) (latOf h.intraday)).map
      Prod.snd).map HistEntry.date).Nodup
    rw [List.map_map]
    have hperm := (jsSort_perm (fun a b : Nat × HistEntry => ltDate a.2 b.2)
      (latOf h.intraday)).map (HistEntry.date ∘ Prod.snd)
    refine hperm.symm.nodup ?_
    exact latOf_dates_nodup h.intraday

/-! ### Structure of the compacted intraday list (towards idempotence) -/

/-- The new intraday list produced by `optimizeItem`. -/
def intraOf (cutoff : Nat) (l : List HistEntry) : List HistEntry :=
  (jsSort (fun a b => ltTs a.2 b.2) (finOf cutoff l)).map Prod.snd

/-- The final ascending sort of `finalEntries`, with each element re-tagged
by its position in `finalEntries` (for stability reasoning). -/
def sgOf (cutoff : Nat) (l : List HistEntry) : List (Nat × (Nat × HistEntry)) :=
  jsSort (fun A B => ltTs A.2.2 B.2.2) (enumF 0 (finOf cutoff l))

/-- The new intraday list tagged with its own positions (what pass 2 of a
repeated compaction enumerates). -/
def egOf (cutoff : Nat) (l : List HistEntry) : List (Nat × (Nat × HistEntry)) :=
  enumF 0 (jsSort (fun a b => ltTs a.2 b.2) (finOf cutoff l))

theorem enumF_snd_inj {α : Type} :
    ∀ (n : Nat) (G : List α), G.Nodup →
      ∀ {m k : Nat} {x : α}, (m, x) ∈ enumF n G → (k, x) ∈ enumF n G → m = k := by
  intro n G
  induction G generalizing n with
  | nil => intro _ m k x hm; exact absurd hm (by simp [enumF])
  | cons g gs ih =>
    intro hnd m k x hm hk
    rcases List.mem_cons.mp hm with hm | hm <;> rcases List.mem_cons.mp hk with hk | hk
    · rw [Prod.mk.injEq] at hm hk
      omega
    · exfalso
      rw [Prod.mk.injEq] at hm
      have : x ∈ gs := enumF_mem_snd (n + 1) gs (k, x) hk
      rw [← hm.2] at hnd
      exact (List.nodup_cons.mp hnd).1 this
    · exfalso
      rw [Prod.mk.injEq] at hk
      have : x ∈ gs := enumF_mem_snd (n + 1) gs (m, x) hm
      rw [← hk.2] at hnd
      exact (List.nodup_cons.mp hnd).1 this
    · exact ih (n + 1) (List.nodup_cons.mp hnd).2 hm hk

theorem mem_enumF_of_mem {α : Type} :
    ∀ (n : Nat) (G : List α) (x : α), x ∈ G → ∃ k, (k, x) ∈ enumF n G := by
  intro n G
  induction G generalizing n with
  | nil => intro x hx; exact absurd hx (by simp)
  | cons g gs ih =>
    intro x hx
    rcases List.mem_cons.mp hx with hx | hx
    · exact ⟨n, by rw [hx]; exact List.mem_cons_self _ _⟩
    · obtain ⟨k, hk⟩ := ih (n + 1) x hx
      exact ⟨k, List.mem_cons_of_mem _ hk⟩

theorem sg_map_snd (cutoff : Nat) (l : List HistEntry) :
    (sgOf cutoff l).map Prod.snd = jsSort (fun a b => ltTs a.2 b.2) (finOf cutoff l) := by
  rw [sgOf, jsSort_map_eq (fun a b : Nat × HistEntry => ltTs a.2 b.2) Prod.snd,
    enumF_map_snd]

theorem sg_pairwise (cutoff : Nat) (l : List HistEntry) :
    (sgOf cutoff l).Pairwise (fun A B => (ltTs B.2.2 A.2.2) = false ∧
      ((ltTs A.2.2 B.2.2) = false → A.1 < B.1)) := by
  refine jsSort_sorted_stable (fun A B => ltTs A.2.2 B.2.2) Prod.fst
    (fun A B h => by simp only [ltTs, decide_eq_true_eq] at h
                     simp only [ltTs, decide_eq_false_iff_not]
                     omega)
    (fun A B C h1 h2 => by simp only [ltTs, decide_eq_false_iff_not] at h1 h2 ⊢
                           omega)
    (enumF 0 (finOf cutoff l)) ?_
  exact (enumF_fst_lt 0 (finOf cutoff l)).imp (fun h _ _ => h)

theorem g_nodup (cutoff : Nat) (l : List HistEntry) :
    (jsSort (fun a b => ltTs a.2 b.2) (finOf cutoff l)).Nodup :=
  (jsSort_perm _ _).symm.nodup (finOf_nodup cutoff l)

theorem g_mem_fin (cutoff : Nat) (l : List HistEntry) {p : Nat × HistEntry}
    (hp : p ∈ jsSort (fun a b => ltTs a.2 b.2) (finOf cutoff l)) : p ∈ finOf cutoff l :=
  (jsSort_perm _ _).subset hp

theorem finPos_lat_iff (cutoff : Nat) (l : List HistEntry) :
    ∀ P ∈ enumF 0 (finOf cutoff l), (P.2 ∈ latOf l ↔ P.1 < (latOf l).length) := by
  intro P hP
  rw [finOf, enumF_append] at hP
  constructor
  · intro h
    rcases List.mem_append.mp hP with h2 | h2
    · have := enumF_fst_bound 0 (latOf l) P h2
      omega
    · exfalso
      exact (wkOf_spec cutoff l (enumF_mem_snd _ _ P h2)).2.2 h
  · intro h
    rcases List.mem_append.mp hP with h2 | h2
    · exact enumF_mem_snd _ _ P h2
    · have := (enumF_fst_bound (0 + (latOf l).length) (wkOf cutoff l) P h2).1
      omega

theorem eg_eq_sg_map (cutoff : Nat) (l : List HistEntry) :
    egOf cutoff l = (enumF 0 (sgOf cutoff l)).map (fun P => (P.1, P.2.2)) := by
  rw [egOf, ← sg_map_snd, enumF_map]

theorem eg_fst_lt (cutoff : Nat) (l : List HistEntry) :
    (egOf cutoff l).Pairwise (fun A B => A.1 < B.1) := enumF_fst_lt 0 _

theorem eg_sorted (cutoff : Nat) (l : List HistEntry) :
    (egOf cutoff l).Pairwise (fun A B => A.2.2.timestamp ≤ B.2.2.timestamp) := by
  have hG : (jsSort (fun a b => ltTs a.2 b.2) (finOf cutoff l)).Pairwise
      (fun a b => a.2.timestamp ≤ b.2.timestamp) := by
    rw [← sg_map_snd]
    refine List.pairwise_map.mpr ?_
    refine (sg_pairwise cutoff l).imp ?_
    intro A B hab
    have h1 := hab.1
    simp only [ltTs, decide_eq_false_iff_not] at h1
    omega
  exact @enumF_snd_pairwise (Nat × HistEntry)
    (fun a b => a.2.timestamp ≤ b.2.timestamp) 0 _ hG

theorem eg_origin_mono (cutoff : Nat) (l : List HistEntry) :
    (egOf cutoff l).Pairwise (fun A B => A.2.2.timestamp = B.2.2.timestamp →
      B.2 ∈ latOf l → A.2 ∈ latOf l) := by
  have hG : (jsSort (fun a b => ltTs a.2 b.2) (finOf cutoff l)).Pairwise
      (fun a b => a.2.timestamp = b.2.timestamp → b ∈ latOf l → a ∈ latOf l) := by
    rw [← sg_map_snd]
    refine List.pairwise_map.mpr ?_
    refine (sg_pairwise cutoff l).imp_of_mem ?_
    intro A B hA hB hab hts hBlat
    have hAfin : A ∈ enumF 0 (finOf cutoff l) := (jsSort_perm _ _).subset hA
    have hBfin : B ∈ enumF 0 (finOf cutoff l) := (jsSort_perm _ _).subset hB
    have hAB : A.1 < B.1 := by
      refine hab.2 ?_
      simp only [ltTs, decide_eq_false_iff_not]
      omega
    have hBpos := (finPos_lat_iff cutoff l B hBfin).mp hBlat
    exact (finPos_lat_iff cutoff l A hAfin).mpr (by omega)
  exact @enumF_snd_pairwise (Nat × HistEntry)
    (fun a b => a.2.timestamp = b.2.timestamp → b ∈ latOf l → a ∈ latOf l) 0 _ hG

theorem e2_eq (cutoff : Nat) (l : List HistEntry) :
    enumF 0 (intraOf cutoff l) = (egOf cutoff l).map (fun P => (P.1, P.2.2)) := by
  rw [intraOf, egOf, enumF_map]

theorem eg_snd_in_fin (cutoff : Nat) (l : List HistEntry) {P : Nat × (Nat × HistEntry)}
    (hP : P ∈ egOf cutoff l) : P.2 ∈ finOf cutoff l :=
  g_mem_fin cutoff l (enumF_mem_snd 0 _ P hP)

/-- Every pass-1 `latestDailyMap` entry is re-selected by a second
compaction: its occurrence in the compacted intraday list is that date's
kept entry again. -/
theorem lat_origin_sel (cutoff : Nat) (l : List HistEntry) :
    ∀ P ∈ egOf cutoff l, P.2 ∈ latOf l → (P.1, P.2.2) ∈ latOf (intraOf cutoff l) := by
  intro P hP hPlat
  rw [latOf_mem_iff]
  refine ⟨?_, ?_⟩
  · rw [e2_eq]
    exact List.mem_map.mpr ⟨P, hP, rfl⟩
  · intro q hq hd
    rw [e2_eq] at hq
    rcases List.mem_map.mp hq with ⟨Q, hQ, hQq⟩
    have hQfin : Q.2 ∈ finOf cutoff l := eg_snd_in_fin cutoff l hQ
    have hQenum : Q.2 ∈ enumF 0 l := finOf_subset_enum cutoff l Q.2 hQfin
    have hdate : Q.2.2.date = P.2.2.date := by
      rw [← hQq] at hd
      exact hd
    have hts : Q.2.2.timestamp ≤ P.2.2.timestamp :=
      latOf_max l P.2 hPlat Q.2 hQenum hdate
    by_cases htse : Q.2.2.timestamp = P.2.2.timestamp
    · rcases Nat.lt_trichotomy Q.1 P.1 with hQP | hQP | hQP
      · exfalso
        have hQlat : Q.2 ∈ latOf l :=
          pairwise_fst_rel (eg_origin_mono cutoff l) (eg_fst_lt cutoff l) hQ hP hQP
            htse hPlat
        have heq2 : Q.2 = P.2 :=
          List.inj_on_of_nodup_map (latOf_dates_nodup l) hQlat hPlat hdate
        have hQ1mem : (Q.1, Q.2) ∈ enumF 0
            (jsSort (fun a b => ltTs a.2 b.2) (finOf cutoff l)) := by
          rw [Prod.mk.eta]
          exact hQ
        have hP1mem : (P.1, Q.2) ∈ enumF 0
            (jsSort (fun a b => ltTs a.2 b.2) (finOf cutoff l)) := by
          rw [heq2, Prod.mk.eta]
          exact hP
        have := enumF_snd_inj 0 _ (g_nodup cutoff l) hQ1mem hP1mem
        omega
      · have hQP2 : Q = P := mem_fst_eq_unique (eg_fst_lt cutoff l) hQ hP hQP
        rw [← hQq, hQP2]
        exact Or.inl rfl
      · rw [← hQq]
        exact Or.inr (Or.inr ⟨htse.symm, hQP⟩)
    · rw [← hQq]
      exact Or.inr (Or.inl (show Q.2.2.timestamp < P.2.2.timestamp by omega))

/-- Conversely, every pass-2 selection originates from a pass-1
`latestDailyMap` entry. -/
theorem sel_lat_origin (cutoff : Nat) (l : List HistEntry) :
    ∀ r ∈ latOf (intraOf cutoff l),
      ∃ P ∈ egOf cutoff l, (P.1, P.2.2) = r ∧ P.2 ∈ latOf l := by
  intro r hr
  have hre : r ∈ enumF 0 (intraOf cutoff l) := latOf_subset_enum _ r hr
  rw [e2_eq] at hre
  rcases List.mem_map.mp hre with ⟨P, hP, hPr⟩
  refine ⟨P, hP, hPr, ?_⟩
  have hPfin : P.2 ∈ finOf cutoff l := eg_snd_in_fin cutoff l hP
  rcases List.mem_append.mp hPfin with h | h
  · exact h
  · exfalso
    obtain ⟨hPenum, hwin, hPnlat⟩ := wkOf_spec cutoff l h
    obtain ⟨pd, hpd, hpdd⟩ := latOf_cover l P.2 hPenum
    have hpdG : pd ∈ jsSort (fun a b => ltTs a.2 b.2) (finOf cutoff l) :=
      (jsSort_perm _ _).mem_iff.mpr (List.mem_append.mpr (Or.inl hpd))
    obtain ⟨k, hk⟩ := mem_enumF_of_mem 0 _ pd hpdG
    have hksel := lat_origin_sel cutoff l (k, pd) hk hpd
    have hdate : ((k, pd.2) : Nat × HistEntry).2.date = r.2.date := by
      rw [← hPr]
      exact hpdd
    have heqr : ((k, pd.2) : Nat × HistEntry) = r :=
      List.inj_on_of_nodup_map (latOf_dates_nodup (intraOf cutoff l)) hksel hr hdate
    have hfst : k = P.1 := by
      rw [← hPr] at heqr
      have hf := congrArg Prod.fst heqr
      exact hf
    have hPeq : ((k, pd) : Nat × (Nat × HistEntry)) = P :=
      mem_fst_eq_unique (eg_fst_lt cutoff l) hk hP hfst
    apply hPnlat
    rw [← congrArg Prod.snd hPeq]
    exact hpd

theorem lat_values_nodup (l : List HistEntry) : ((latOf l).map Prod.snd).Nodup := by
  refine List.Nodup.of_map HistEntry.date ?_
  rw [List.map_map]
  exact latOf_dates_nodup l

theorem lat_values_perm (cutoff : Nat) (l : List HistEntry) :
    ((latOf (intraOf cutoff l)).map Prod.snd).Perm ((latOf l).map Prod.snd) := by
  rw [List.perm_ext_iff_of_nodup (lat_values_nodup (intraOf cutoff l)) (lat_values_nodup l)]
  intro v
  constructor
  · intro hv
    rcases List.mem_map.mp hv with ⟨r, hr, hrv⟩
    obtain ⟨P, hP, hPr, hPlat⟩ := sel_lat_origin cutoff l r hr
    refine List.mem_map.mpr ⟨P.2, hPlat, ?_⟩
    rw [← hPr] at hrv
    exact hrv
  · intro hv
    rcases List.mem_map.mp hv with ⟨p, hplat, hpv⟩
    have hpG : p ∈ jsSort (fun a b => ltTs a.2 b.2) (finOf cutoff l) :=
      (jsSort_perm _ _).mem_iff.mpr (List.mem_append.mpr (Or.inl hplat))
    obtain ⟨k, hk⟩ := mem_enumF_of_mem 0 _ p hpG
    have hsel := lat_origin_sel cutoff l (k, p) hk hplat
    exact List.mem_map.mpr ⟨((k, p.2) : Nat × HistEntry), hsel, hpv⟩

theorem e2_pairwise_ALex (cutoff : Nat) (l : List HistEntry) :
    (enumF 0 (intraOf cutoff l)).Pairwise ALex := by
  rw [e2_eq]
  refine List.pairwise_map.mpr ?_
  refine ((eg_sorted cutoff l).and (eg_fst_lt cutoff l)).imp ?_
  intro A B hab
  obtain ⟨hts, hfst⟩ := hab
  by_cases h : A.2.2.timestamp < B.2.2.timestamp
  · exact Or.inl h
  · refine Or.inr ⟨?_, hfst⟩
    show A.2.2.timestamp = B.2.2.timestamp
    omega

/-- A second compaction's `finalIntradayEntries` set collects exactly the
whole (already-compacted) intraday list. -/
theorem fin2_perm_e2 (cutoff : Nat) (l : List HistEntry) :
    (finOf cutoff (intraOf cutoff l)).Perm (enumF 0 (intraOf cutoff l)) := by
  rw [List.perm_ext_iff_of_nodup (finOf_nodup cutoff (intraOf cutoff l))
    (enum_nodup (intraOf cutoff l))]
  intro r
  constructor
  · exact finOf_subset_enum cutoff (intraOf cutoff l) r
  · intro hr
    have hr2 := hr
    rw [e2_eq] at hr2
    rcases List.mem_map.mp hr2 with ⟨P, hP, hPr⟩
    have hPfin := eg_snd_in_fin cutoff l hP
    rcases List.mem_append.mp hPfin with h | h
    · refine List.mem_append.mpr (Or.inl ?_)
      rw [← hPr]
      exact lat_origin_sel cutoff l P hP h
    · by_cases hlat : r ∈ latOf (intraOf cutoff l)
      · exact List.mem_append.mpr (Or.inl hlat)
      · refine List.mem_append.mpr
          (Or.inr (wkOf_mem cutoff (intraOf cutoff l) hr ?_ hlat))
        have hwin := (wkOf_spec cutoff l h).2.1
        rw [← hPr]
        exact hwin

/-- A second compaction's `finalIntradayEntries` set lists its entries
so that timestamp ties appear in ascending intraday position. -/
theorem fin2_pairwise (cutoff : Nat) (l : List HistEntry) :
    (finOf cutoff (intraOf cutoff l)).Pairwise
      (fun a b => ltTs a.2 b.2 = false → ltTs b.2 a.2 = false → a.1 < b.1) := by
  rw [finOf, List.pairwise_append]
  refine ⟨?_, ?_, ?_⟩
  · refine (latOf_pairwise (intraOf cutoff l)).imp ?_
    intro a b hab h1 h2
    simp only [ltTs, decide_eq_false_iff_not] at h1 h2
    simp only [DLex] at hab
    omega
  · refine (List.Pairwise.sublist (List.filter_sublist _) (enumF_fst_lt 0 _)).imp ?_
    intro a b hab _ _
    exact hab
  · intro a ha b hb h1 h2
    simp only [ltTs, decide_eq_false_iff_not] at h1 h2
    have hts : a.2.timestamp = b.2.timestamp := by omega
    obtain ⟨hbe, hbwin, hbnl⟩ := wkOf_spec cutoff (intraOf cutoff l) hb
    obtain ⟨P, hP, hPa, hPlat⟩ := sel_lat_origin cutoff l a ha
    have hbe2 := hbe
    rw [e2_eq] at hbe2
    rcases List.mem_map.mp hbe2 with ⟨B, hB, hBb⟩
    have hBnlat : B.2 ∉ latOf l := by
      intro hc
      apply hbnl
      rw [← hBb]
      exact lat_origin_sel cutoff l B hB hc
    rcases Nat.lt_trichotomy a.1 b.1 with h | h | h
    · exact h
    · exfalso
      have hae : a ∈ enumF 0 (intraOf cutoff l) := latOf_subset_enum _ a ha
      have heq : a = b := mem_fst_eq_unique (enumF_fst_lt 0 _) hae hbe h
      rw [heq] at ha
      exact hbnl ha
    · exfalso
      have hfB : B.1 = b.1 := by
        have hfb := congrArg Prod.fst hBb
        exact hfb
      have hfP : P.1 = a.1 := by
        have hfp := congrArg Prod.fst hPa
        exact hfp
      have hBP : B.1 < P.1 := by omega
      have htsB : B.2.2.timestamp = P.2.2.timestamp := by
        show ((B.1, B.2.2) : Nat × HistEntry).2.timestamp
          = ((P.1, P.2.2) : Nat × HistEntry).2.timestamp
        rw [hBb, hPa]
        omega
      have hBlat := pairwise_fst_rel (eg_origin_mono cutoff l) (eg_fst_lt cutoff l)
        hB hP hBP htsB hPlat
      exact hBnlat hBlat

/-- Re-sorting a compacted intraday list (with its fresh position tags)
ascending by timestamp is the identity: the stable sort already left
ties in position order. -/
theorem sort_fin2_eq (cutoff : Nat) (l : List HistEntry) :
    jsSort (fun a b => ltTs a.2 b.2) (finOf cutoff (intraOf cutoff l))
      = enumF 0 (intraOf cutoff l) :=
  pairwise_perm_eq ALex_asymm
    ((jsSort_perm _ _).trans (fin2_perm_e2 cutoff l))
    (ascSort_pairwise_ALex _ (fin2_pairwise cutoff l))
    (e2_pairwise_ALex cutoff l)

theorem intraOf_idem (cutoff : Nat) (l : List HistEntry) :
    intraOf cutoff (intraOf cutoff l) = intraOf cutoff l := by
  rw [intraOf, sort_fin2_eq, enumF_map_snd]

theorem daily_sorted_strict (l : List HistEntry) :
    ((jsSort (fun a b => ltDate a.2 b.2) (latOf l)).map Prod.snd).Pairwise
      (fun a b => a.date < b.date) := by
  have hle : ((jsSort (fun a b => ltDate a.2 b.2) (latOf l)).map Prod.snd).Pairwise
      (fun a b => a.date ≤ b.date) := by
    have h3 := jsSort_map_eq ltDate Prod.snd (latOf l)
    rw [h3]
    refine (jsSort_sorted_of_comp ltDate
      (fun a b hab => by simp only [ltDate, decide_eq_true_eq] at hab
                         simp only [ltDate, decide_eq_false_iff_not]
                         omega)
      (fun a b c h1 h2 => by simp only [ltDate, decide_eq_false_iff_not] at h1 h2 ⊢
                             omega) _).imp ?_
    intro a b hab
    simp only [ltDate, decide_eq_false_iff_not] at hab
    omega
  have hnd : (((jsSort (fun a b => ltDate a.2 b.2) (latOf l)).map Prod.snd).map
      HistEntry.date).Nodup := by
    rw [List.map_map]
    have hperm := (jsSort_perm (fun a b : Nat × HistEntry => ltDate a.2 b.2)
      (latOf l)).map (HistEntry.date ∘ Prod.snd)
    refine hperm.symm.nodup ?_
    exact latOf_dates_nodup l
  have hne : ((jsSort (fun a b => ltDate a.2 b.2) (latOf l)).map Prod.snd).Pairwise
      (fun a b => a.date ≠ b.date) := List.pairwise_map.mp hnd
  exact (hle.and hne).imp (fun h => Nat.lt_of_le_of_ne h.1 h.2)

/-- A second compaction rebuilds the same `daily` sequence. -/
theorem daily_idem (cutoff : Nat) (l : List HistEntry) :
    (jsSort (fun a b => ltDate a.2 b.2) (latOf (intraOf cutoff l))).map Prod.snd
      = (jsSort (fun a b => ltDate a.2 b.2) (latOf l)).map Prod.snd :=
  pairwise_perm_eq (fun _ _ h1 h2 => Nat.lt_asymm h1 h2)
    (((jsSort_perm _ _).map Prod.snd).trans ((lat_values_perm cutoff l).trans
      (((jsSort_perm _ _).map Prod.snd).symm)))
    (daily_sorted_strict (intraOf cutoff l))
    (daily_sorted_strict l)

theorem optimizeItem_idem (cutoff : Nat) (h : MinerHistory) :
    optimizeItem cutoff (optimizeItem cutoff h) = optimizeItem cutoff h := by
  have h2 : optimizeItem cutoff (optimizeItem cutoff h) =
      { daily := (jsSort (fun a b => ltDate a.2 b.2)
          (latOf (intraOf cutoff h.intraday))).map Prod.snd
        intraday := (jsSort (fun a b => ltTs a.2 b.2)
          (finOf cutoff (intraOf cutoff h.intraday))).map Prod.snd } := rfl
  rw [h2, optimizeItem_eq cutoff h]
  have h3 : (jsSort (fun a b => ltTs a.2 b.2)
      (finOf cutoff (intraOf cutoff h.intraday))).map Prod.snd
      = (jsSort (fun a b => ltTs a.2 b.2) (finOf cutoff h.intraday)).map Prod.snd := by
    show intraOf cutoff (intraOf cutoff h.intraday) = intraOf cutoff h.intraday
    exact intraOf_idem cutoff h.intraday
  rw [h3, daily_idem cutoff h.intraday]

/-- C4: history compaction is idempotent — for a fixed retention-window
boundary, compacting an already-compacted history map changes nothing:
every item's daily and intraday sequences come out identical. -/
theorem optimizePriceHistory_idempotent (cutoff : Nat)
    (ph : List (String × MinerHistory)) :
    optimizePriceHistory cutoff (optimizePriceHistory cutoff ph)
      = optimizePriceHistory cutoff ph := by
  rw [optimizePriceHistory, optimizePriceHistory, List.map_map]
  refine List.map_congr_left ?_
  intro p _
  show (p.1, optimizeItem cutoff (optimizeItem cutoff p.2)) = (p.1, optimizeItem cutoff p.2)
  rw [optimizeItem_idem]

end MinerTracker
